import Mathlib

/-!
Verification of the bitset family of `drdozer/aoc_2024`
(`src/bitset/{mod,primitives,packed,simd,sparse}.rs`, `src/stack_vec.rs`)
against its natural-language specification.

Modelling conventions (shallow embedding):
* A fixed-width unsigned machine word of width `w` is a `Nat` together with the
  invariant `bits < 2 ^ w`; wherever the Rust code can overflow the width, the
  embedding truncates with `% 2 ^ w` explicitly.
* Rust shift semantics: in optimized builds `x << s` masks the shift amount by
  the width (`s % w`); in debug-instrumented builds an overlarge shift amount
  panics.  The functional embeddings below use optimized-build semantics (the
  masked shift); the separate `...Checked` embeddings model the
  debug/optimized distinction with an explicit `debug : Bool` parameter and an
  `Except RtErr` result, where `RtErr.panic` is a Rust panic/assertion and
  `RtErr.ub` is an out-of-bounds unchecked access (undefined behavior).
* Arrays (`[P; N]`, SIMD vectors, `ArrayVec` storage) are `List Nat` values.
  `List.getD i 0` / `List.set` model element access; the instrumented variants
  flag out-of-range unchecked accesses as `RtErr.ub`.
-/

namespace AocBitset

/-- Population count of a natural number, the embedding of Rust's
`count_ones()` used by `PrimitiveBitset::count` (src/bitset/primitives.rs
lines 129-131). -/
def countOnes (n : Nat) : Nat :=
  if h : n = 0 then 0 else n % 2 + countOnes (n / 2)
decreasing_by
  exact Nat.div_lt_self (Nat.pos_of_ne_zero h) (by decide)

/-- Number of trailing zero bits of a nonzero number, the embedding of Rust's
`trailing_zeros()` used by `PrimitiveBitsetIterator::next`
(src/bitset/primitives.rs line 175). -/
def tzc (n : Nat) : Nat :=
  if h : n = 0 then 0
  else if n % 2 = 1 then 0
  else 1 + tzc (n / 2)
decreasing_by
  exact Nat.div_lt_self (Nat.pos_of_ne_zero h) (by decide)

/-- All-ones value of a `w`-bit word: `U::max_value()`, i.e. the result of
`PrimitiveBitset::full` (src/bitset/primitives.rs lines 73-77). -/
def primFull (w : Nat) : Nat := 2 ^ w - 1

/-- `PrimitiveBitset::empty` (src/bitset/primitives.rs lines 69-71). -/
def primEmpty : Nat := 0

/-- `PrimitiveBitset::get` (src/bitset/primitives.rs lines 125-127):
`self.bits & U::one() << index != U::zero()`.  All call sites guarantee
`index` is below the width, where the plain shift agrees with the machine
shift. -/
def primGet (bits i : Nat) : Bool := bits &&& (1 <<< i) != 0

/-- `PrimitiveBitset::set` (src/bitset/primitives.rs lines 79-81):
`self.bits = self.bits | U::one() << index`. -/
def primSet (bits i : Nat) : Nat := bits ||| (1 <<< i)

/-- `PrimitiveBitset::unset` (src/bitset/primitives.rs lines 101-103):
`self.bits = self.bits & !U::one() << index`.  By Rust operator precedence
this is `bits & ((!1) << index)`: the complement is taken before the shift.
On a `w`-bit word `!U::one()` is `(2^w - 1) ^^^ 1` and the shifted mask is
truncated to `w` bits. -/
def primUnset (w bits i : Nat) : Nat :=
  bits &&& (((primFull w ^^^ 1) <<< i) % 2 ^ w)

/-- `PrimitiveBitset::set_range` (src/bitset/primitives.rs lines 83-99) with
the range bounds already resolved to `start`/`end`:
if `end >= size` then `bits | (!0 << start)` else
`bits | ((1 << end) - (1 << start))`.  The shift amount of the first branch
is masked by the width (optimized-build Rust shift semantics; it only
differs from the plain shift when `start = w`, reachable via
`set_range(w..w)`). -/
def primSetRange (w bits s e : Nat) : Nat :=
  if w ≤ e then bits ||| ((primFull w <<< (s % w)) % 2 ^ w)
  else bits ||| ((1 <<< e) - (1 <<< s))

/-- `PrimitiveBitset::unset_range` (src/bitset/primitives.rs lines 105-123):
if `end >= size` then `bits & !(!0 << start)` else
`bits & !((1 << end) - (1 << start))`.  The `w`-bit complement is
`primFull w ^^^ ·`; the first branch's shift amount is masked as in
`primSetRange`. -/
def primUnsetRange (w bits s e : Nat) : Nat :=
  if w ≤ e then bits &&& (primFull w ^^^ ((primFull w <<< (s % w)) % 2 ^ w))
  else bits &&& (primFull w ^^^ ((1 <<< e) - (1 <<< s)))

/-- `BitAnd for PrimitiveBitset` (src/bitset/primitives.rs lines 31-39). -/
def primAnd (a b : Nat) : Nat := a &&& b

/-- `BitAndAssign for PrimitiveBitset` (src/bitset/primitives.rs lines
41-45): `self.bits &= rhs.bits`. -/
def primAndAssign (a b : Nat) : Nat := a &&& b

/-- `BitOr for PrimitiveBitset` (src/bitset/primitives.rs lines 47-55). -/
def primOr (a b : Nat) : Nat := a ||| b

/-- `BitOrAssign for PrimitiveBitset` (src/bitset/primitives.rs lines
57-61): `self.bits |= rhs.bits`. -/
def primOrAssign (a b : Nat) : Nat := a ||| b

/-- The ascending list of set-bit indices of a `w`-bit word: the reference
ordering that iteration is checked against. -/
def bitsList (w bits : Nat) : List Nat :=
  (List.range w).filter (fun j => bits.testBit j)

/-! ### Word-level lemmas -/

theorem testBit_one_shift (i j : Nat) : ((1 : Nat) <<< i).testBit j = decide (j = i) := by
  rw [Nat.one_shiftLeft, Nat.testBit_two_pow]
  simp [eq_comm]

theorem testBit_ge_width {w bits : Nat} (hb : bits < 2 ^ w) {j : Nat} (hj : w ≤ j) :
    bits.testBit j = false :=
  Nat.testBit_lt_two_pow
    (lt_of_lt_of_le hb (Nat.pow_le_pow_right (by decide) hj))

theorem primGet_eq_testBit (bits i : Nat) : primGet bits i = bits.testBit i := by
  unfold primGet
  rw [Nat.one_shiftLeft, Nat.and_two_pow]
  cases h : bits.testBit i
  · simp
  · have hp : (0 : Nat) < 2 ^ i := Nat.pos_pow_of_pos i (by decide)
    simp only [Bool.toNat_true, Nat.one_mul, bne_iff_ne, ne_eq]
    omega

theorem two_pow_sub_two_pow_eq {s e : Nat} (hse : s ≤ e) :
    (1 <<< e) - (1 <<< s) = (2 ^ (e - s) - 1) <<< s := by
  rw [Nat.one_shiftLeft, Nat.one_shiftLeft, Nat.shiftLeft_eq, Nat.sub_mul, ← Nat.pow_add,
    Nat.sub_add_cancel hse, Nat.one_mul]

theorem testBit_intervalMask {s e : Nat} (hse : s ≤ e) (j : Nat) :
    ((1 <<< e) - (1 <<< s) : Nat).testBit j = decide (s ≤ j ∧ j < e) := by
  rw [two_pow_sub_two_pow_eq hse, Nat.testBit_shiftLeft, Nat.testBit_two_pow_sub_one,
    Bool.eq_iff_iff]
  simp only [Bool.and_eq_true, decide_eq_true_eq, ge_iff_le]
  omega

theorem testBit_primFull (w j : Nat) : (primFull w).testBit j = decide (j < w) := by
  unfold primFull
  exact Nat.testBit_two_pow_sub_one w j

theorem testBit_fullShiftMask {w : Nat} (s : Nat) (j : Nat) :
    ((primFull w <<< s) % 2 ^ w).testBit j = decide (s ≤ j ∧ j < w) := by
  unfold primFull
  rw [Nat.testBit_mod_two_pow, Nat.testBit_shiftLeft, Nat.testBit_two_pow_sub_one,
    Bool.eq_iff_iff]
  simp only [Bool.and_eq_true, decide_eq_true_eq, ge_iff_le]
  omega

theorem testBit_fullXor {w m : Nat} (hm : m < 2 ^ w) (j : Nat) :
    (primFull w ^^^ m).testBit j = (decide (j < w) && !(m.testBit j)) := by
  rw [Nat.testBit_xor, testBit_primFull]
  rcases Nat.lt_or_ge j w with h | h
  · simp [h]
  · simp [Nat.not_lt.mpr h, testBit_ge_width hm h]

theorem primFull_lt (w : Nat) : primFull w < 2 ^ w :=
  Nat.sub_lt (Nat.pos_pow_of_pos w (by decide)) (by decide)

theorem intervalMask_lt {w e : Nat} (s : Nat) (he : e ≤ w) :
    (1 <<< e) - (1 <<< s) < 2 ^ w := by
  rw [Nat.one_shiftLeft, Nat.one_shiftLeft]
  calc 2 ^ e - 2 ^ s ≤ 2 ^ e - 1 := Nat.sub_le_sub_left Nat.one_le_two_pow _
    _ < 2 ^ w := lt_of_lt_of_le (Nat.sub_lt (Nat.pos_pow_of_pos e (by decide)) (by decide))
        (Nat.pow_le_pow_right (by decide) he)

/-! ### Population-count lemmas -/

theorem countOnes_unfold (n : Nat) : countOnes n = n % 2 + countOnes (n / 2) := by
  by_cases h : n = 0
  · subst h; rw [countOnes]; simp
  · rw [countOnes]; simp [h]

theorem countOnes_zero : countOnes 0 = 0 := by rw [countOnes]; simp

theorem countOnes_eq_countP {w : Nat} :
    ∀ bits, bits < 2 ^ w → countOnes bits = (List.range w).countP (fun j => bits.testBit j) := by
  induction w with
  | zero =>
    intro bits hb
    have : bits = 0 := by omega
    subst this
    simp [countOnes_zero]
  | succ w ih =>
    intro bits hb
    have hdiv : bits / 2 < 2 ^ w := by
      rw [Nat.div_lt_iff_lt_mul (by decide)]
      calc bits < 2 ^ (w + 1) := hb
        _ = 2 ^ w * 2 := by rw [Nat.pow_succ]
    rw [countOnes_unfold, List.range_succ_eq_map, List.countP_cons, List.countP_map,
      ih _ hdiv]
    have hc : ((fun j => bits.testBit j) ∘ Nat.succ) = fun j => (bits / 2).testBit j := by
      funext j
      simp [Function.comp, Nat.testBit_succ]
    rw [hc]
    rcases Nat.mod_two_eq_zero_or_one bits with h | h <;>
      simp [Nat.testBit_zero, h, Nat.add_comm]

theorem mod_two_eq_of_testBit_zero {a b : Nat} (h : a.testBit 0 = b.testBit 0) :
    a % 2 = b % 2 := by
  have ha := Nat.mod_two_eq_zero_or_one a
  have hb := Nat.mod_two_eq_zero_or_one b
  simp only [Nat.testBit_zero, decide_eq_decide] at h
  omega

theorem lor_div_two (a b : Nat) : (a ||| b) / 2 = a / 2 ||| b / 2 := by
  apply Nat.eq_of_testBit_eq
  intro j
  rw [Nat.testBit_div_two, Nat.testBit_lor, Nat.testBit_lor, Nat.testBit_div_two,
    Nat.testBit_div_two]

theorem lor_one_of_even {bits : Nat} (h : bits % 2 = 0) : bits ||| 1 = bits + 1 := by
  apply Nat.eq_of_testBit_eq
  intro j
  cases j with
  | zero =>
    rw [Nat.testBit_lor]
    simp only [Nat.testBit_zero]
    rw [Bool.eq_iff_iff]
    simp only [Bool.or_eq_true, decide_eq_true_eq, or_true, true_iff]
    omega
  | succ j =>
    have h1 : ((1 : Nat) / 2).testBit j = false := by
      have : (1 : Nat) / 2 = 0 := by decide
      rw [this, Nat.zero_testBit]
    have h2 : (bits + 1) / 2 = bits / 2 := by omega
    rw [Nat.testBit_lor, Nat.testBit_add_one, Nat.testBit_add_one, Nat.testBit_add_one,
      h1, h2, Bool.or_false]

theorem lor_two_pow_of_testBit {bits i : Nat} (h : bits.testBit i = true) :
    bits ||| (1 <<< i) = bits := by
  apply Nat.eq_of_testBit_eq
  intro j
  rw [Nat.testBit_lor, testBit_one_shift]
  by_cases hj : j = i
  · subst hj; simp [h]
  · simp [hj]

theorem countOnes_lor_two_pow :
    ∀ (i bits : Nat), bits.testBit i = false →
      countOnes (bits ||| (1 <<< i)) = countOnes bits + 1
  | 0, bits, h => by
    have hb : bits % 2 = 0 := by
      simp only [Nat.testBit_zero, decide_eq_false_iff_not] at h
      omega
    have h1 : (1 : Nat) <<< 0 = 1 := rfl
    rw [h1, lor_one_of_even hb, countOnes_unfold (bits + 1), countOnes_unfold bits]
    have h2 : (bits + 1) / 2 = bits / 2 := by omega
    rw [h2]
    omega
  | i + 1, bits, h => by
    have hd : (bits ||| (1 <<< (i + 1))) / 2 = bits / 2 ||| (1 <<< i) := by
      rw [lor_div_two]
      congr 1
      rw [Nat.one_shiftLeft, Nat.one_shiftLeft]
      simp [Nat.pow_succ]
    have hm : (bits ||| (1 <<< (i + 1))) % 2 = bits % 2 :=
      mod_two_eq_of_testBit_zero (by rw [Nat.testBit_lor, testBit_one_shift]; simp)
    have hrec := countOnes_lor_two_pow i (bits / 2)
      (by rw [← Nat.testBit_add_one]; exact h)
    rw [countOnes_unfold (bits ||| (1 <<< (i + 1))), hd, hm, hrec,
      countOnes_unfold bits]
    omega

/-! ### Trailing-zero count, highest set bit, and bit-clearing lemmas -/

theorem tzc_decomp : ∀ n, n ≠ 0 → n % 2 ^ (tzc n + 1) = 2 ^ tzc n := by
  intro n
  induction n using Nat.strong_induction_on with
  | _ n ih =>
    intro h
    rw [tzc, dif_neg h]
    by_cases hodd : n % 2 = 1
    · rw [if_pos hodd]
      simpa using hodd
    · rw [if_neg hodd]
      have hne : n / 2 ≠ 0 := by omega
      have hlt : n / 2 < n := Nat.div_lt_self (Nat.pos_of_ne_zero h) (by decide)
      have hih := ih (n / 2) hlt hne
      have hn2 : n = 2 * (n / 2) := by omega
      have e1 : 1 + tzc (n / 2) + 1 = tzc (n / 2) + 1 + 1 := by omega
      rw [e1, Nat.pow_succ, Nat.mul_comm (2 ^ (tzc (n / 2) + 1)) 2]
      nth_rewrite 1 [hn2]
      calc 2 * (n / 2) % (2 * 2 ^ (tzc (n / 2) + 1))
          = 2 * (n / 2 % 2 ^ (tzc (n / 2) + 1)) := Nat.mul_mod_mul_left 2 _ _
        _ = 2 * 2 ^ tzc (n / 2) := by rw [hih]
        _ = 2 ^ (1 + tzc (n / 2)) := by rw [Nat.pow_add, Nat.pow_one]

theorem testBit_tzc {n : Nat} (h : n ≠ 0) : n.testBit (tzc n) = true := by
  have hd := tzc_decomp n h
  have h1 : n.testBit (tzc n) = (n % 2 ^ (tzc n + 1)).testBit (tzc n) := by
    rw [Nat.testBit_mod_two_pow]
    simp
  rw [h1, hd, Nat.testBit_two_pow]
  simp

theorem testBit_lt_tzc {n : Nat} (h : n ≠ 0) {j : Nat} (hj : j < tzc n) :
    n.testBit j = false := by
  have hd := tzc_decomp n h
  have h1 : n.testBit j = (n % 2 ^ (tzc n + 1)).testBit j := by
    rw [Nat.testBit_mod_two_pow]
    have hlt : j < tzc n + 1 := by omega
    simp [hlt]
  rw [h1, hd, Nat.testBit_two_pow]
  simp
  omega

theorem testBit_mul_pow_add {q c k : Nat} (hc : c < 2 ^ k) (j : Nat) :
    (q * 2 ^ k + c).testBit j = if j < k then c.testBit j else q.testBit (j - k) := by
  by_cases hj : j < k
  · have hmod : (q * 2 ^ k + c) % 2 ^ k = c := by
      rw [Nat.mul_comm q, Nat.mul_add_mod, Nat.mod_eq_of_lt hc]
    have h1 : (q * 2 ^ k + c).testBit j = ((q * 2 ^ k + c) % 2 ^ k).testBit j := by
      rw [Nat.testBit_mod_two_pow]
      simp [hj]
    rw [h1, hmod, if_pos hj]
  · have hdiv : (q * 2 ^ k + c) / 2 ^ j = q / 2 ^ (j - k) := by
      have h2 : (2 : Nat) ^ j = 2 ^ k * 2 ^ (j - k) := by
        rw [← Nat.pow_add]
        congr 1
        omega
      rw [h2, ← Nat.div_div_eq_div_mul]
      congr 1
      rw [Nat.mul_comm q, Nat.mul_add_div (Nat.pos_pow_of_pos k (by decide)),
        Nat.div_eq_of_lt hc, Nat.add_zero]
    rw [Nat.testBit_to_div_mod, hdiv, if_neg hj, Nat.testBit_to_div_mod]

theorem and_pred_testBit {n : Nat} (h : n ≠ 0) (j : Nat) :
    (n &&& (n - 1)).testBit j = (n.testBit j && decide (j ≠ tzc n)) := by
  have hd := tzc_decomp n h
  have hpow : (0 : Nat) < 2 ^ tzc n := Nat.pos_pow_of_pos _ (by decide)
  have hdm := Nat.div_add_mod n (2 ^ (tzc n + 1))
  rw [hd, Nat.mul_comm] at hdm
  have hn : n = n / 2 ^ (tzc n + 1) * 2 ^ (tzc n + 1) + 2 ^ tzc n := hdm.symm
  have hc1 : (2 : Nat) ^ tzc n < 2 ^ (tzc n + 1) := by
    rw [Nat.pow_succ]
    omega
  have hn1 : n - 1 = n / 2 ^ (tzc n + 1) * 2 ^ (tzc n + 1) + (2 ^ tzc n - 1) := by
    omega
  have hc2 : (2 : Nat) ^ tzc n - 1 < 2 ^ (tzc n + 1) := by omega
  rw [Nat.testBit_land]
  rcases Nat.lt_trichotomy j (tzc n) with hj | hj | hj
  · rw [testBit_lt_tzc h hj, Bool.false_and, Bool.false_and]
  · have hb2 : (n - 1).testBit j = false := by
      rw [hn1, testBit_mul_pow_add hc2, if_pos (by omega), hj,
        Nat.testBit_two_pow_sub_one]
      simp
    rw [hb2, hj, testBit_tzc h]
    simp
  · have hb1 : (n - 1).testBit j = n.testBit j := by
      rw [hn1, testBit_mul_pow_add hc2, if_neg (by omega)]
      conv_rhs => rw [hn]
      rw [testBit_mul_pow_add hc1, if_neg (by omega)]
    rw [hb1]
    have hne : decide (j ≠ tzc n) = true := by
      simp
      omega
    rw [hne, Bool.and_true, Bool.and_self]

/-! ### Highest-set-bit lemmas -/

theorem testBit_log2_self {n : Nat} (h : n ≠ 0) : n.testBit (Nat.log2 n) = true := by
  have h1 : 2 ^ Nat.log2 n ≤ n := Nat.log2_self_le h
  have h2 : n < 2 ^ (Nat.log2 n + 1) := Nat.lt_log2_self
  have hp : (0 : Nat) < 2 ^ Nat.log2 n := Nat.pos_pow_of_pos _ (by decide)
  rw [Nat.testBit_to_div_mod]
  have hdiv : n / 2 ^ Nat.log2 n = 1 := by
    have hlt : n / 2 ^ Nat.log2 n < 2 := by
      rw [Nat.div_lt_iff_lt_mul hp]
      calc n < 2 ^ (Nat.log2 n + 1) := h2
        _ = 2 * 2 ^ Nat.log2 n := by rw [Nat.pow_succ, Nat.mul_comm]
    have hge : 1 ≤ n / 2 ^ Nat.log2 n := (Nat.one_le_div_iff hp).mpr h1
    omega
  rw [hdiv]
  decide

theorem testBit_gt_log2 {n j : Nat} (hj : Nat.log2 n < j) : n.testBit j = false := by
  rcases Nat.eq_zero_or_pos n with h | h
  · subst h
    exact Nat.zero_testBit j
  · have h2 : n < 2 ^ (Nat.log2 n + 1) := Nat.lt_log2_self
    exact Nat.testBit_lt_two_pow
      (lt_of_lt_of_le h2 (Nat.pow_le_pow_right (by decide) (by omega)))

theorem and_shift_sub_one (n v : Nat) : n &&& ((1 <<< v) - 1) = n % 2 ^ v := by
  rw [Nat.one_shiftLeft]
  exact Nat.and_pow_two_sub_one_eq_mod n v

/-! ### The primitive iterator -/

/-- Forward iteration of `PrimitiveBitsetIterator` (src/bitset/primitives.rs
lines 167-183), fully unrolled from a fresh iterator: while `bits != 0`,
yield `bits.trailing_zeros()` and clear the lowest set bit with
`self.bits &= self.bits.wrapping_sub(1)` (the subtraction never wraps
because `bits != 0`). -/
def primFwdList (bits : Nat) : List Nat :=
  if h : bits = 0 then []
  else tzc bits :: primFwdList (bits &&& (bits - 1))
decreasing_by
  exact lt_of_le_of_lt Nat.and_le_right (by omega)

/-- `leading_zeros()` of a nonzero `w`-bit word, which equals
`w - 1 - ⌊log2 bits⌋` (src/bitset/primitives.rs line 194). -/
def leadingZeros (w bits : Nat) : Nat := w - 1 - Nat.log2 bits

/-- Backward iteration of `PrimitiveBitsetIterator` (src/bitset/primitives.rs
lines 185-206), fully unrolled from a fresh iterator: while `bits != 0`,
yield `value = fixed_capacity() - 1 - leading_zeros`, then clear that bit and
everything above it with the mask `(1 << value).wrapping_sub(1)` (the
subtraction never wraps because `1 << value >= 1`). -/
def primBwdList (w bits : Nat) : List Nat :=
  if h : bits = 0 then []
  else (w - 1 - leadingZeros w bits) ::
    primBwdList w (bits &&& ((1 <<< (w - 1 - leadingZeros w bits)) - 1))
decreasing_by
  rw [and_shift_sub_one]
  have hv : w - 1 - leadingZeros w bits ≤ Nat.log2 bits := by
    unfold leadingZeros
    omega
  have hle : 2 ^ (w - 1 - leadingZeros w bits) ≤ bits :=
    le_trans (Nat.pow_le_pow_right (by decide) hv) (Nat.log2_self_le h)
  exact lt_of_lt_of_le (Nat.mod_lt _ (Nat.pos_pow_of_pos _ (by decide))) hle

theorem bitsList_zero (w : Nat) : bitsList w 0 = [] := by
  unfold bitsList
  simp [Nat.zero_testBit]

theorem mem_bitsList {w bits j : Nat} (hb : bits < 2 ^ w) :
    j ∈ bitsList w bits ↔ bits.testBit j = true := by
  unfold bitsList
  rw [List.mem_filter, List.mem_range]
  constructor
  · rintro ⟨_, h2⟩
    exact h2
  · intro hbit
    refine ⟨?_, hbit⟩
    by_contra hge
    rw [testBit_ge_width hb (by omega)] at hbit
    cases hbit

theorem bitsList_pairwise (w bits : Nat) : (bitsList w bits).Pairwise (· < ·) :=
  (List.pairwise_lt_range w).filter _

theorem range'_split (s n k : Nat) (hk : k ≤ n) :
    List.range' s n = List.range' s k ++ List.range' (s + k) (n - k) := by
  have hap := List.range'_append s k (n - k) 1
  simp only [Nat.one_mul] at hap
  have hn : n - k + k = n := by omega
  rw [hn] at hap
  exact hap.symm

theorem bitsList_clear_lowest {w bits : Nat} (h : bits ≠ 0) (hb : bits < 2 ^ w) :
    bitsList w bits = tzc bits :: bitsList w (bits &&& (bits - 1)) := by
  have htw : tzc bits < w := by
    by_contra hge
    have h1 : 2 ^ tzc bits ≤ bits := Nat.testBit_implies_ge (testBit_tzc h)
    have h2 : (2 : Nat) ^ w ≤ 2 ^ tzc bits := Nat.pow_le_pow_right (by decide) (by omega)
    omega
  obtain ⟨m, hm⟩ : ∃ m, w - tzc bits = m + 1 := ⟨w - tzc bits - 1, by omega⟩
  unfold bitsList
  rw [List.range_eq_range', range'_split 0 w (tzc bits) (by omega),
    List.filter_append, List.filter_append]
  have hsucc : List.range' (0 + tzc bits) (w - tzc bits) =
      tzc bits :: List.range' (tzc bits + 1) m := by
    rw [Nat.zero_add, hm, List.range'_succ]
  have hlow1 : (List.range' 0 (tzc bits)).filter (fun j => bits.testBit j) = [] := by
    rw [List.filter_eq_nil_iff]
    intro a ha
    rw [List.mem_range'_1] at ha
    simp only [Bool.not_eq_true]
    exact testBit_lt_tzc h (by omega)
  have hlow2 : (List.range' 0 (tzc bits)).filter
      (fun j => (bits &&& (bits - 1)).testBit j) = [] := by
    rw [List.filter_eq_nil_iff]
    intro a ha
    rw [List.mem_range'_1] at ha
    simp only [Bool.not_eq_true]
    rw [and_pred_testBit h, testBit_lt_tzc h (by omega), Bool.false_and]
  have htail : (List.range' (tzc bits + 1) m).filter
        (fun j => (bits &&& (bits - 1)).testBit j) =
      (List.range' (tzc bits + 1) m).filter
        (fun j => bits.testBit j) := by
    apply List.filter_congr
    intro j hj
    rw [List.mem_range'_1] at hj
    rw [and_pred_testBit h]
    have hne : decide (j ≠ tzc bits) = true := by
      simp
      omega
    rw [hne, Bool.and_true]
  rw [hlow1, hlow2, hsucc, List.filter_cons_of_pos (testBit_tzc h),
    List.filter_cons_of_neg, htail, List.nil_append, List.nil_append]
  rw [and_pred_testBit h]
  simp

theorem primFwdList_eq_bitsList {w : Nat} :
    ∀ bits, bits < 2 ^ w → primFwdList bits = bitsList w bits := by
  intro bits
  induction bits using Nat.strong_induction_on with
  | _ bits ih =>
    intro hb
    by_cases h : bits = 0
    · subst h
      rw [primFwdList]
      simp [bitsList_zero]
    · rw [primFwdList, dif_neg h, bitsList_clear_lowest h hb]
      congr 1
      have hlt : bits &&& (bits - 1) < bits :=
        lt_of_le_of_lt Nat.and_le_right (by omega)
      exact ih _ hlt (lt_trans hlt hb)

theorem bitsList_elongate {w k bits : Nat} (hk : k ≤ w) (hb : bits < 2 ^ k) :
    bitsList w bits = bitsList k bits := by
  unfold bitsList
  rw [List.range_eq_range', List.range_eq_range',
    range'_split 0 w k hk, List.filter_append]
  have hhigh : (List.range' (0 + k) (w - k)).filter (fun j => bits.testBit j) = [] := by
    rw [List.filter_eq_nil_iff]
    intro a ha
    rw [List.mem_range'_1] at ha
    simp only [Bool.not_eq_true]
    exact testBit_ge_width hb (by omega)
  rw [hhigh, List.append_nil]

theorem bitsList_clear_highest {w bits : Nat} (h : bits ≠ 0) (hb : bits < 2 ^ w) :
    bitsList w bits =
      bitsList w (bits % 2 ^ Nat.log2 bits) ++ [Nat.log2 bits] := by
  have hp : (0 : Nat) < 2 ^ Nat.log2 bits := Nat.pos_pow_of_pos _ (by decide)
  have hlw : Nat.log2 bits < w := (Nat.log2_lt h).mpr hb
  have hmodlt : bits % 2 ^ Nat.log2 bits < 2 ^ Nat.log2 bits := Nat.mod_lt _ hp
  have e1 : bitsList w bits = bitsList (Nat.log2 bits + 1) bits :=
    bitsList_elongate (by omega) Nat.lt_log2_self
  have e2 : bitsList w (bits % 2 ^ Nat.log2 bits) =
      bitsList (Nat.log2 bits) (bits % 2 ^ Nat.log2 bits) :=
    bitsList_elongate (by omega) hmodlt
  rw [e1, e2]
  unfold bitsList
  rw [List.range_succ, List.filter_append]
  congr 1
  · apply List.filter_congr
    intro j hj
    rw [List.mem_range] at hj
    rw [Nat.testBit_mod_two_pow]
    simp [hj]
  · rw [List.filter_singleton, testBit_log2_self h]
    rfl

theorem primBwdList_eq_reverse {w : Nat} :
    ∀ bits, bits < 2 ^ w → primBwdList w bits = (bitsList w bits).reverse := by
  intro bits
  induction bits using Nat.strong_induction_on with
  | _ bits ih =>
    intro hb
    by_cases h : bits = 0
    · subst h
      rw [primBwdList]
      simp [bitsList_zero]
    · rw [primBwdList, dif_neg h]
      have hlw : Nat.log2 bits < w := (Nat.log2_lt h).mpr hb
      have hval : w - 1 - leadingZeros w bits = Nat.log2 bits := by
        unfold leadingZeros
        omega
      rw [hval, and_shift_sub_one]
      have hmlt : bits % 2 ^ Nat.log2 bits < bits :=
        lt_of_lt_of_le (Nat.mod_lt _ (Nat.pos_pow_of_pos _ (by decide)))
          (Nat.log2_self_le h)
      rw [ih _ hmlt (lt_trans hmlt hb), bitsList_clear_highest h hb,
        List.reverse_append]
      rfl

/-! ### The packed bitset: PackedBitset of N sub-components of width w

The `[P; N]` array is a `List Nat` of the sub-component words.  In the pure
functional embeddings, element access is total: `List.getD i 0` reads and
`List.set` writes, and an out-of-range write leaves the list unchanged.  The
access-trace function `packedRangeAccesses` below records which element
indices the range edits pass to `get_unchecked_mut`, for the safety claim
about out-of-bounds accesses. -/

/-- `PackedBitset::get` (src/bitset/packed.rs lines 202-206):
`element_index = index / P::fixed_capacity()`, `bit_index = index % ...`,
then delegate to the sub-component. -/
def packedGet (w : Nat) (ps : List Nat) (i : Nat) : Bool :=
  primGet (ps.getD (i / w) 0) (i % w)

/-- `PackedBitset::set` (src/bitset/packed.rs lines 78-82). -/
def packedSet (w : Nat) (ps : List Nat) (i : Nat) : List Nat :=
  ps.set (i / w) (primSet (ps.getD (i / w) 0) (i % w))

/-- `PackedBitset::unset` (src/bitset/packed.rs lines 140-144), delegating to
the primitive `unset`. -/
def packedUnset (w : Nat) (ps : List Nat) (i : Nat) : List Nat :=
  ps.set (i / w) (primUnset w (ps.getD (i / w) 0) (i % w))

/-- `PackedBitset::count` (src/bitset/packed.rs lines 208-214): sum of the
sub-component counts. -/
def packedCount (ps : List Nat) : Nat := (ps.map countOnes).sum

/-- `PackedBitset::empty` (src/bitset/packed.rs lines 70-72). -/
def packedEmpty (N : Nat) : List Nat := List.replicate N 0

/-- `PackedBitset::full` (src/bitset/packed.rs lines 74-76). -/
def packedFull (w N : Nat) : List Nat := List.replicate N (primFull w)

/-- `BitAnd for PackedBitset` (src/bitset/packed.rs lines 27-37): the loop
`for i in 0..N { result.0[i] &= rhs.0[i] }` combines the arrays
element-wise. -/
def packedAnd (x y : List Nat) : List Nat := List.zipWith (· &&& ·) x y

/-- `BitAndAssign for PackedBitset` (src/bitset/packed.rs lines 39-45): the
same element-wise loop, written in place. -/
def packedAndAssign (x y : List Nat) : List Nat := List.zipWith (· &&& ·) x y

/-- `BitOr for PackedBitset` (src/bitset/packed.rs lines 47-57). -/
def packedOr (x y : List Nat) : List Nat := List.zipWith (· ||| ·) x y

/-- `BitOrAssign for PackedBitset` (src/bitset/packed.rs lines 59-65). -/
def packedOrAssign (x y : List Nat) : List Nat := List.zipWith (· ||| ·) x y

/-- The full-element overwrite loop
`for i in start_element_index..=end_element_index { *self.0.get_unchecked_mut(i) = v }`
of the packed range edits (src/bitset/packed.rs lines 132-136 and 194-198). -/
def fillLoop (ps : List Nat) (a b : Nat) (v : Nat) : List Nat :=
  (List.range' a (b + 1 - a)).foldl (fun l i => l.set i v) ps

/-- The leading-fragment edit of the packed range edits (src/bitset/packed.rs
lines 111-119 and 173-181): when `start_bit_index > 0`, delegate
`start_bit_index..` (whose resolved end bound is the sub-capacity `w`) to the
start element. -/
def startFrag (w : Nat) (edit : Nat → Nat → Nat → Nat) (ps : List Nat) (a : Nat) :
    List Nat :=
  if 0 < a % w then ps.set (a / w) (edit (ps.getD (a / w) 0) (a % w) w) else ps

/-- The trailing-fragment edit of the packed range edits
(src/bitset/packed.rs lines 121-129 and 183-191): when
`end_bit_index < Self::fixed_capacity()` (which compares against the FULL
capacity `N * w`, not the sub-capacity), delegate `..end_bit_index` to the
end element. -/
def endFrag (w N : Nat) (edit : Nat → Nat → Nat → Nat) (ps : List Nat) (b : Nat) :
    List Nat :=
  if b % w < N * w then ps.set (b / w) (edit (ps.getD (b / w) 0) 0 (b % w)) else ps

/-- Common control flow of `PackedBitset::set_range` and
`PackedBitset::unset_range` (src/bitset/packed.rs lines 84-138 and 146-200),
which are textually identical up to the word-level edit and the overwrite
value: if the whole range lies in one element, delegate; otherwise edit the
partial leading fragment, the partial trailing fragment, and overwrite every
element strictly between with `v` (`P::full()` or `P::empty()`). -/
def packedRangeCore (w N : Nat) (edit : Nat → Nat → Nat → Nat) (v : Nat)
    (ps : List Nat) (a b : Nat) : List Nat :=
  if a / w = b / w then
    ps.set (a / w) (edit (ps.getD (a / w) 0) (a % w) (b % w))
  else
    fillLoop (endFrag w N edit (startFrag w edit ps a) b)
      (if 0 < a % w then a / w + 1 else a / w)
      (if b % w < N * w then b / w - 1 else b / w)
      v

/-- `PackedBitset::set_range` (src/bitset/packed.rs lines 84-138). -/
def packedSetRange (w N : Nat) (ps : List Nat) (a b : Nat) : List Nat :=
  packedRangeCore w N (primSetRange w) (primFull w) ps a b

/-- `PackedBitset::unset_range` (src/bitset/packed.rs lines 146-200). -/
def packedUnsetRange (w N : Nat) (ps : List Nat) (a b : Nat) : List Nat :=
  packedRangeCore w N (primUnsetRange w) primEmpty ps a b

/-- The element indices passed to `self.0.get_unchecked_mut` by
`PackedBitset::set_range` and `unset_range` (their control flow is
identical), in program order. -/
def packedRangeAccesses (w N a b : Nat) : List Nat :=
  if a / w = b / w then [a / w]
  else
    (if 0 < a % w then [a / w] else []) ++
    (if b % w < N * w then [b / w] else []) ++
    List.range' (if 0 < a % w then a / w + 1 else a / w)
      ((if b % w < N * w then b / w - 1 else b / w) + 1 -
        (if 0 < a % w then a / w + 1 else a / w))

/-! ### Division toolkit -/

theorem lt_of_div_lt_div (w : Nat) {a b : Nat} (h : a / w < b / w) : a < b := by
  rcases Nat.eq_zero_or_pos w with hw | hw
  · subst hw
    simp [Nat.div_zero] at h
  · have ha := Nat.div_add_mod a w
    have hb := Nat.div_add_mod b w
    have hma : a % w < w := Nat.mod_lt _ hw
    have hmul : w * (a / w + 1) ≤ w * (b / w) := Nat.mul_le_mul_left w (by omega)
    rw [Nat.mul_succ] at hmul
    omega

theorem le_iff_mod_le_of_div_eq {w a j : Nat} (h : a / w = j / w) :
    a ≤ j ↔ a % w ≤ j % w := by
  have ha := Nat.div_add_mod a w
  have hj := Nat.div_add_mod j w
  rw [h] at ha
  omega

theorem lt_iff_mod_lt_of_div_eq {w a j : Nat} (h : a / w = j / w) :
    j < a ↔ j % w < a % w := by
  have ha := Nat.div_add_mod a w
  have hj := Nat.div_add_mod j w
  rw [h] at ha
  omega

/-! ### Element-access lemmas -/

theorem getD_set (l : List Nat) (i j v : Nat) :
    (l.set i v).getD j 0 = if i = j ∧ i < l.length then v else l.getD j 0 := by
  rw [List.getD_eq_getElem?_getD, List.getD_eq_getElem?_getD, List.getElem?_set]
  by_cases h1 : i = j
  · subst h1
    by_cases h2 : i < l.length
    · simp [h2]
    · rw [if_pos rfl, if_neg h2, if_neg (fun hc => h2 hc.2),
        List.getElem?_eq_none (by omega)]
  · rw [if_neg h1, if_neg (fun hc => h1 hc.1)]

theorem foldl_set_getD (v : Nat) :
    ∀ (n : Nat) (ps : List Nat) (a k : Nat),
      ((List.range' a n).foldl (fun l i => l.set i v) ps).getD k 0 =
        if a ≤ k ∧ k < a + n ∧ k < ps.length then v else ps.getD k 0 := by
  intro n
  induction n with
  | zero =>
    intro ps a k
    rw [if_neg (by omega)]
    rfl
  | succ n ih =>
    intro ps a k
    rw [List.range'_succ, List.foldl_cons, ih, getD_set, List.length_set]
    split_ifs <;> omega

theorem foldl_set_length (v : Nat) :
    ∀ (n : Nat) (ps : List Nat) (a : Nat),
      ((List.range' a n).foldl (fun l i => l.set i v) ps).length = ps.length := by
  intro n
  induction n with
  | zero => intro ps a; rfl
  | succ n ih =>
    intro ps a
    rw [List.range'_succ, List.foldl_cons, ih, List.length_set]

theorem fillLoop_getD (ps : List Nat) (a b v k : Nat) :
    (fillLoop ps a b v).getD k 0 =
      if a ≤ k ∧ k ≤ b ∧ k < ps.length then v else ps.getD k 0 := by
  unfold fillLoop
  rw [foldl_set_getD]
  by_cases h : a ≤ k ∧ k ≤ b ∧ k < ps.length
  · rw [if_pos h, if_pos (by omega)]
  · rw [if_neg h, if_neg (by omega)]

theorem fillLoop_length (ps : List Nat) (a b v : Nat) :
    (fillLoop ps a b v).length = ps.length :=
  foldl_set_length v _ ps a

theorem startFrag_getD (w : Nat) (edit : Nat → Nat → Nat → Nat) (ps : List Nat)
    (a k : Nat) :
    (startFrag w edit ps a).getD k 0 =
      if 0 < a % w ∧ a / w = k ∧ a / w < ps.length
      then edit (ps.getD k 0) (a % w) w else ps.getD k 0 := by
  unfold startFrag
  by_cases h1 : 0 < a % w
  · rw [if_pos h1, getD_set]
    by_cases h2 : a / w = k ∧ a / w < ps.length
    · rw [if_pos h2, if_pos ⟨h1, h2⟩, h2.1]
    · rw [if_neg h2, if_neg (by tauto)]
  · rw [if_neg h1, if_neg (by tauto)]

theorem startFrag_length (w : Nat) (edit : Nat → Nat → Nat → Nat) (ps : List Nat)
    (a : Nat) : (startFrag w edit ps a).length = ps.length := by
  unfold startFrag
  by_cases h1 : 0 < a % w
  · rw [if_pos h1, List.length_set]
  · rw [if_neg h1]

theorem endFrag_getD (w N : Nat) (edit : Nat → Nat → Nat → Nat) (ps : List Nat)
    (b k : Nat) :
    (endFrag w N edit ps b).getD k 0 =
      if b % w < N * w ∧ b / w = k ∧ b / w < ps.length
      then edit (ps.getD k 0) 0 (b % w) else ps.getD k 0 := by
  unfold endFrag
  by_cases h1 : b % w < N * w
  · rw [if_pos h1, getD_set]
    by_cases h2 : b / w = k ∧ b / w < ps.length
    · rw [if_pos h2, if_pos ⟨h1, h2⟩, h2.1]
    · rw [if_neg h2, if_neg (by tauto)]
  · rw [if_neg h1, if_neg (by tauto)]

theorem endFrag_length (w N : Nat) (edit : Nat → Nat → Nat → Nat) (ps : List Nat)
    (b : Nat) : (endFrag w N edit ps b).length = ps.length := by
  unfold endFrag
  by_cases h1 : b % w < N * w
  · rw [if_pos h1, List.length_set]
  · rw [if_neg h1]

theorem packedRangeCore_length (w N : Nat) (edit : Nat → Nat → Nat → Nat)
    (v : Nat) (ps : List Nat) (a b : Nat) :
    (packedRangeCore w N edit v ps a b).length = ps.length := by
  unfold packedRangeCore
  by_cases h : a / w = b / w
  · rw [if_pos h, List.length_set]
  · rw [if_neg h, fillLoop_length, endFrag_length, startFrag_length]

/-! ### Word-level characterizations of the range edits -/

theorem primSetRange_testBit {w : Nat} (u : Nat) {s e : Nat} (hsw : s < w)
    (hse : s ≤ e) (hew : e ≤ w) {j : Nat} (hj : j < w) :
    (primSetRange w u s e).testBit j = (u.testBit j || decide (s ≤ j ∧ j < e)) := by
  unfold primSetRange
  by_cases h : w ≤ e
  · have he : e = w := by omega
    subst he
    rw [if_pos h, Nat.testBit_lor, Nat.mod_eq_of_lt hsw, testBit_fullShiftMask]
  · rw [if_neg h, Nat.testBit_lor, testBit_intervalMask hse]

theorem primUnsetRange_testBit {w : Nat} (u : Nat) {s e : Nat} (hsw : s < w)
    (hse : s ≤ e) (hew : e ≤ w) {j : Nat} (hj : j < w) :
    (primUnsetRange w u s e).testBit j = (u.testBit j && !decide (s ≤ j ∧ j < e)) := by
  unfold primUnsetRange
  by_cases h : w ≤ e
  · have he : e = w := by omega
    subst he
    rw [if_pos h, Nat.testBit_land, Nat.mod_eq_of_lt hsw,
      testBit_fullXor (Nat.mod_lt _ (Nat.pos_pow_of_pos _ (by decide))),
      testBit_fullShiftMask]
    simp [hj]
  · rw [if_neg h, Nat.testBit_land,
      testBit_fullXor (intervalMask_lt s (by omega)), testBit_intervalMask hse]
    simp [hj]

/-! ### The master lemma for the packed range edits -/

theorem packedRangeCore_testBit
    {w N : Nat} (edit : Nat → Nat → Nat → Nat) (v : Nat) (g : Bool → Bool → Bool)
    (hedit : ∀ u s e j, s < w → s ≤ e → e ≤ w → j < w →
      (edit u s e).testBit j = g (u.testBit j) (decide (s ≤ j ∧ j < e)))
    (hv : ∀ (x : Bool) (j : Nat), j < w → v.testBit j = g x true)
    (hgf : ∀ x : Bool, g x false = x)
    (ps : List Nat) (a b : Nat) (hw : 0 < w) (hN : ps.length = N)
    (hab : a ≤ b) (hbN : b ≤ N * w) (j : Nat) (hj : j < N * w) :
    packedGet w (packedRangeCore w N edit v ps a b) j
      = g (packedGet w ps j) (decide (a ≤ j ∧ j < b)) := by
  have hN0 : 0 < N := by
    by_contra hc
    have hz : N = 0 := by omega
    rw [hz, Nat.zero_mul] at hj
    omega
  have hjb : j % w < w := Nat.mod_lt _ hw
  have hkN : j / w < N := by
    rw [Nat.div_lt_iff_lt_mul hw]
    exact hj
  have hNdiv : N * w / w = N := Nat.mul_div_cancel N hw
  have hble : b / w ≤ N := by
    calc b / w ≤ N * w / w := Nat.div_le_div_right hbN
      _ = N := hNdiv
  unfold packedGet
  rw [primGet_eq_testBit, primGet_eq_testBit]
  unfold packedRangeCore
  by_cases hsingle : a / w = b / w
  · rw [if_pos hsingle, getD_set, hN]
    by_cases hk : a / w = j / w ∧ a / w < N
    · rw [if_pos hk]
      have hsb : a % w ≤ b % w := (le_iff_mod_le_of_div_eq hsingle).mp hab
      rw [hedit _ _ _ _ (Nat.mod_lt _ hw) hsb (le_of_lt (Nat.mod_lt _ hw)) hjb]
      have hdec : decide (a % w ≤ j % w ∧ j % w < b % w) = decide (a ≤ j ∧ j < b) := by
        rw [decide_eq_decide]
        rw [← le_iff_mod_le_of_div_eq hk.1, ← lt_iff_mod_lt_of_div_eq (hsingle ▸ hk.1)]
      rw [hdec, hk.1]
    · rw [if_neg hk]
      have hnab : ¬(a ≤ j ∧ j < b) := by
        rcases Nat.lt_trichotomy (j / w) (a / w) with hp | hp | hp
        · have : j < a := lt_of_div_lt_div w hp
          omega
        · exact absurd ⟨hp.symm, hp ▸ hkN⟩ hk
        · have : b < j := lt_of_div_lt_div w (hsingle ▸ hp)
          omega
      rw [decide_eq_false hnab, hgf]
  · rw [if_neg hsingle]
    have hseiw : a / w < b / w := lt_of_le_of_ne (Nat.div_le_div_right hab) hsingle
    have hwN : w ≤ N * w := Nat.le_mul_of_pos_left w hN0
    have hend : b % w < N * w := lt_of_lt_of_le (Nat.mod_lt _ hw) hwN
    have hlen1 : (startFrag w edit ps a).length = ps.length := startFrag_length _ _ _ _
    have hlen2 : (endFrag w N edit (startFrag w edit ps a) b).length = ps.length := by
      rw [endFrag_length, hlen1]
    rw [fillLoop_getD, hlen2, hN, if_pos hend]
    have hEF := endFrag_getD w N edit (startFrag w edit ps a) b (j / w)
    have hSF := startFrag_getD w edit ps a (j / w)
    rw [hlen1, hN] at hEF
    rw [hN] at hSF
    rcases Nat.lt_trichotomy (j / w) (a / w) with hpos | hpos | hpos
    · -- entirely below the range: untouched, and j < a
      have hja : j < a := lt_of_div_lt_div w hpos
      rw [if_neg (by split_ifs <;> omega), hEF, if_neg (by omega), hSF,
        if_neg (by omega), decide_eq_false (by omega), hgf]
    · -- the start element
      by_cases hsb : 0 < a % w
      · -- partial leading fragment
        have hjlt : j < b := lt_of_div_lt_div w (by omega)
        rw [if_neg (by rw [if_pos hsb]; omega), hEF, if_neg (by omega), hSF,
          if_pos ⟨hsb, hpos.symm, by omega⟩,
          hedit _ _ _ _ (Nat.mod_lt _ hw) (le_of_lt (Nat.mod_lt _ hw)) le_rfl hjb]
        have hdec : decide (a % w ≤ j % w ∧ j % w < w) = decide (a ≤ j ∧ j < b) := by
          rw [decide_eq_decide]
          have h1 : a ≤ j ↔ a % w ≤ j % w := le_iff_mod_le_of_div_eq hpos.symm
          constructor
          · rintro ⟨h2, _⟩
            exact ⟨h1.mpr h2, hjlt⟩
          · rintro ⟨h2, _⟩
            exact ⟨h1.mp h2, hjb⟩
        rw [hdec]
      · -- start element fully covered by the overwrite loop
        have hjlt : j < b := lt_of_div_lt_div w (by omega)
        have hja : a ≤ j := by
          have hdm := Nat.div_add_mod a w
          have hjdm := Nat.div_add_mod j w
          rw [hpos] at hjdm
          omega
        rw [if_pos (by rw [if_neg hsb]; omega),
          hv ((ps.getD (j / w) 0).testBit (j % w)) _ hjb,
          decide_eq_true (show a ≤ j ∧ j < b from ⟨hja, hjlt⟩)]
    · rcases Nat.lt_trichotomy (j / w) (b / w) with hpos2 | hpos2 | hpos2
      · -- strictly between: overwritten with v
        have hja : a ≤ j := le_of_lt (lt_of_div_lt_div w hpos)
        have hjlt : j < b := lt_of_div_lt_div w hpos2
        rw [if_pos (by split_ifs <;> omega),
          hv ((ps.getD (j / w) 0).testBit (j % w)) _ hjb,
          decide_eq_true (by omega)]
      · -- the end element: partial trailing fragment
        have hja : a ≤ j := le_of_lt (lt_of_div_lt_div w hpos)
        have hnotloop : ¬((if 0 < a % w then a / w + 1 else a / w) ≤ j / w ∧
            j / w ≤ b / w - 1 ∧ j / w < N) := by
          rintro ⟨-, h2, -⟩
          rw [hpos2] at h2
          have hbw1 : 0 < b / w := Nat.lt_of_le_of_lt (Nat.zero_le _) hseiw
          have h3 : b / w - 1 + 1 = b / w := Nat.succ_pred_eq_of_pos hbw1
          rw [← h3, Nat.add_sub_cancel] at h2
          exact Nat.not_succ_le_self _ h2
        rw [if_neg hnotloop, hEF,
          if_pos ⟨hend, hpos2.symm, by omega⟩, hSF, if_neg (by omega),
          hedit _ _ _ _ hw (Nat.zero_le _) (le_of_lt (Nat.mod_lt _ hw)) hjb]
        have hdec : decide (0 ≤ j % w ∧ j % w < b % w) = decide (a ≤ j ∧ j < b) := by
          rw [decide_eq_decide]
          have h1 : j < b ↔ j % w < b % w := lt_iff_mod_lt_of_div_eq hpos2.symm
          constructor
          · rintro ⟨_, h2⟩
            exact ⟨hja, h1.mpr h2⟩
          · rintro ⟨_, h2⟩
            exact ⟨Nat.zero_le _, h1.mp h2⟩
        rw [hdec]
      · -- entirely above the range: untouched, and b ≤ j
        have hjb2 : b < j := lt_of_div_lt_div w hpos2
        have hnotloop : ¬((if 0 < a % w then a / w + 1 else a / w) ≤ j / w ∧
            j / w ≤ b / w - 1 ∧ j / w < N) := by
          rintro ⟨-, h2, -⟩
          exact absurd (lt_of_le_of_lt (le_trans h2 (Nat.sub_le _ _)) hpos2)
            (lt_irrefl _)
        rw [if_neg hnotloop, hEF, if_neg (by omega), hSF,
          if_neg (by omega), decide_eq_false (by omega), hgf]

/-! ### Run-time error instrumentation

`RtErr.panic` models a Rust panic (an explicit `panic!` or a debug-build
arithmetic trap); `RtErr.ub` models an out-of-bounds unchecked access, which
is undefined behavior. -/

inductive RtErr where
  | panic
  | ub
deriving DecidableEq

/-! ### The SIMD bitset: SimdBitset of N lanes of width w

The vector register is a `List Nat` of the lane words. -/

/-- `SimdBitset::empty` (src/bitset/simd.rs lines 133-137). -/
def simdEmpty (N : Nat) : List Nat := List.replicate N 0

/-- `SimdBitset::full` (src/bitset/simd.rs lines 58-70): splat of `!0`. -/
def simdFull (w N : Nat) : List Nat := List.replicate N (primFull w)

/-- The in-range body of `SimdBitset::contains` (src/bitset/simd.rs lines
165-175): `(self.bits[element_index] & (1 << bit_index)) != T::default()`. -/
def simdContains (w : Nat) (lanes : List Nat) (i : Nat) : Bool :=
  lanes.getD (i / w) 0 &&& (1 <<< (i % w)) != 0

/-- The in-range body of `SimdBitset::insert` (src/bitset/simd.rs lines
139-151): `was_set = (bits[e] & mask) != default; bits[e] |= mask; !was_set`
(the returned Bool is written here as the equivalent `(bits[e] & mask) == 0`). -/
def simdInsert (w : Nat) (lanes : List Nat) (i : Nat) : Bool × List Nat :=
  (lanes.getD (i / w) 0 &&& (1 <<< (i % w)) == 0,
    lanes.set (i / w) (lanes.getD (i / w) 0 ||| (1 <<< (i % w))))

/-- The in-range body of `SimdBitset::remove` (src/bitset/simd.rs lines
153-163): `bits[e] &= !(1 << bit)`, with the `w`-bit complement written as
`primFull w ^^^ ·`. -/
def simdRemove (w : Nat) (lanes : List Nat) (i : Nat) : List Nat :=
  lanes.set (i / w) (lanes.getD (i / w) 0 &&& (primFull w ^^^ (1 <<< (i % w))))

/-- `SimdBitset::count` (src/bitset/simd.rs lines 177-180): sum of the lane
popcounts. -/
def simdCount (lanes : List Nat) : Nat := (lanes.map countOnes).sum

/-- `BitAnd for SimdBitset` (src/bitset/simd.rs lines 72-83): lane-wise. -/
def simdAnd (x y : List Nat) : List Nat := List.zipWith (· &&& ·) x y

/-- `BitAndAssign for SimdBitset` (src/bitset/simd.rs lines 85-94). -/
def simdAndAssign (x y : List Nat) : List Nat := List.zipWith (· &&& ·) x y

/-- `BitOr for SimdBitset` (src/bitset/simd.rs lines 96-107). -/
def simdOr (x y : List Nat) : List Nat := List.zipWith (· ||| ·) x y

/-- `BitOrAssign for SimdBitset` (src/bitset/simd.rs lines 109-118). -/
def simdOrAssign (x y : List Nat) : List Nat := List.zipWith (· ||| ·) x y

/-- `SimdBitset::insert` as the checked entry point (src/bitset/simd.rs
lines 139-151): the explicit `if element_index >= N { panic!("Index out of
bounds") }` runs in optimized and debug builds alike; the `debug` flag does
not influence the behavior. -/
def simdInsertChecked (debug : Bool) (w N : Nat) (lanes : List Nat) (i : Nat) :
    Except RtErr (Bool × List Nat) :=
  if N ≤ i / w then Except.error RtErr.panic
  else Except.ok (simdInsert w lanes i)

/-- `SimdBitset::remove` as the checked entry point (src/bitset/simd.rs
lines 153-163): same unconditional bounds panic. -/
def simdRemoveChecked (debug : Bool) (w N : Nat) (lanes : List Nat) (i : Nat) :
    Except RtErr (List Nat) :=
  if N ≤ i / w then Except.error RtErr.panic
  else Except.ok (simdRemove w lanes i)

/-- `SimdBitset::contains` as the checked entry point (src/bitset/simd.rs
lines 165-175): same unconditional bounds panic. -/
def simdContainsChecked (debug : Bool) (w N : Nat) (lanes : List Nat) (i : Nat) :
    Except RtErr Bool :=
  if N ≤ i / w then Except.error RtErr.panic
  else Except.ok (simdContains w lanes i)

/-- `SimdBitset::insert_unchecked` (src/bitset/simd.rs lines 268-276):
despite the name, the lane access `self.bits[element_index]` still goes
through the vector type's checked `Index` implementation, which panics on an
out-of-range lane in every build. -/
def simdInsertUnchecked (debug : Bool) (w N : Nat) (lanes : List Nat) (i : Nat) :
    Except RtErr (Bool × List Nat) :=
  if N ≤ i / w then Except.error RtErr.panic
  else Except.ok (simdInsert w lanes i)

/-- `SimdBitset::insert_range` (src/bitset/simd.rs lines 189-223): when both
bounds are lane-aligned, overwrite whole lanes `start/w .. end/w` with `!0`,
each guarded by `i < N`; otherwise insert each index of the range, skipping
indices at or beyond the capacity. -/
def simdInsertRange (w N : Nat) (lanes : List Nat) (a b : Nat) : List Nat :=
  if a % w = 0 ∧ b % w = 0 then
    (List.range' (a / w) (b / w - a / w)).foldl
      (fun l i => if i < N then l.set i (primFull w) else l) lanes
  else
    (List.range' a (b - a)).foldl
      (fun l i => if i < N * w then (simdInsert w l i).2 else l) lanes

/-- `SimdBitset::remove_range` (src/bitset/simd.rs lines 225-259): the same
two paths with `T::default()` overwrites and per-bit `remove`. -/
def simdRemoveRange (w N : Nat) (lanes : List Nat) (a b : Nat) : List Nat :=
  if a % w = 0 ∧ b % w = 0 then
    (List.range' (a / w) (b / w - a / w)).foldl
      (fun l i => if i < N then l.set i 0 else l) lanes
  else
    (List.range' a (b - a)).foldl
      (fun l i => if i < N * w then simdRemove w l i else l) lanes

/-- One `next()` call of `SimdBitsetIterator` (src/bitset/simd.rs lines
305-343): starting from cursor `(ce, cb)`, skip all-zero lanes, scan bits
upward; on a hit yield `ce * w + cb` and leave the cursor after the hit.
The iterator's bitset is NOT modified by `next`. -/
def simdNextStep (w N : Nat) (lanes : List Nat) (ce cb : Nat) :
    Option (Nat × Nat × Nat) :=
  if h : ce < N then
    if lanes.getD ce 0 = 0 then simdNextStep w N lanes (ce + 1) 0
    else if hcb : cb < w then
      if lanes.getD ce 0 &&& (1 <<< cb) != 0 then some (ce * w + cb, ce, cb + 1)
      else simdNextStep w N lanes ce (cb + 1)
    else simdNextStep w N lanes (ce + 1) 0
  else none
termination_by (N - ce, w - cb)

/-- The sequence yielded by repeatedly calling `next()` from cursor
`(ce, cb)` (the same control flow as `simdNextStep`, unrolled to a list). -/
def simdFwdList (w N : Nat) (lanes : List Nat) (ce cb : Nat) : List Nat :=
  if h : ce < N then
    if lanes.getD ce 0 = 0 then simdFwdList w N lanes (ce + 1) 0
    else if hcb : cb < w then
      if lanes.getD ce 0 &&& (1 <<< cb) != 0 then
        (ce * w + cb) :: simdFwdList w N lanes ce (cb + 1)
      else simdFwdList w N lanes ce (cb + 1)
    else simdFwdList w N lanes (ce + 1) 0
  else []
termination_by (N - ce, w - cb)

/-- The inner bit scan of `next_back` (src/bitset/simd.rs lines 366-381):
`bit_index` runs downward from `bits_per_element`; returns the first set bit
found. -/
def bitScanBack (v : Nat) : Nat → Option Nat
  | 0 => none
  | b + 1 => if v &&& (1 <<< b) != 0 then some b else bitScanBack v b

/-- The outer element scan of `next_back` (src/bitset/simd.rs lines
354-382): `element_index` runs downward from `N`, skipping all-zero lanes
and lanes whose bit scan finds nothing. -/
def simdFindBack (w : Nat) (lanes : List Nat) : Nat → Option (Nat × Nat)
  | 0 => none
  | e + 1 =>
    if lanes.getD e 0 = 0 then simdFindBack w lanes e
    else
      match bitScanBack (lanes.getD e 0) w with
      | some b => some (e, b)
      | none => simdFindBack w lanes e

/-- One `next_back()` call of `SimdBitsetIterator` (src/bitset/simd.rs lines
351-385): find the highest set bit over all lanes, clear it in a clone of
the bitset (`new_bitset.remove(result)`), store the clone back, and yield
the index.  The forward cursor is untouched. -/
def simdNextBack (w N : Nat) (lanes : List Nat) : Option (Nat × List Nat) :=
  match simdFindBack w lanes N with
  | none => none
  | some (e, b) => some (e * w + b, simdRemove w lanes (e * w + b))

theorem bne_zero_eq_testBit (v m : Nat) : (v &&& (1 <<< m) != 0) = v.testBit m :=
  primGet_eq_testBit v m

theorem sum_set_getD (v : Nat) :
    ∀ (l : List Nat) (k : Nat), k < l.length →
      (l.set k v).sum + l.getD k 0 = l.sum + v := by
  intro l
  induction l with
  | nil =>
    intro k hk
    simp at hk
  | cons x xs ih =>
    intro k hk
    cases k with
    | zero =>
      simp only [List.set_cons_zero, List.sum_cons, List.getD_cons_zero]
      omega
    | succ k =>
      simp only [List.set_cons_succ, List.sum_cons, List.getD_cons_succ]
      have hxs := ih k (by simpa using hk)
      omega

theorem bitScanBack_some {v : Nat} :
    ∀ {m b : Nat}, bitScanBack v m = some b →
      b < m ∧ v.testBit b = true ∧ ∀ c, b < c → c < m → v.testBit c = false := by
  intro m
  induction m with
  | zero =>
    intro b h
    cases h
  | succ m ih =>
    intro b h
    rw [bitScanBack] at h
    by_cases hb : (v &&& (1 <<< m) != 0) = true
    · rw [if_pos hb] at h
      cases h
      rw [bne_zero_eq_testBit] at hb
      refine ⟨Nat.lt_succ_self m, hb, ?_⟩
      intro c hc1 hc2
      omega
    · rw [if_neg hb] at h
      obtain ⟨h1, h2, h3⟩ := ih h
      refine ⟨by omega, h2, ?_⟩
      intro c hc1 hc2
      by_cases hcm : c = m
      · subst hcm
        rw [bne_zero_eq_testBit] at hb
        exact Bool.not_eq_true _ ▸ (eq_false_of_ne_true hb)
      · exact h3 c hc1 (by omega)

theorem bitScanBack_none {v : Nat} :
    ∀ {m : Nat}, bitScanBack v m = none → ∀ c, c < m → v.testBit c = false := by
  intro m
  induction m with
  | zero =>
    intro h c hc
    omega
  | succ m ih =>
    intro h c hc
    rw [bitScanBack] at h
    by_cases hb : (v &&& (1 <<< m) != 0) = true
    · rw [if_pos hb] at h
      cases h
    · rw [if_neg hb] at h
      by_cases hcm : c = m
      · subst hcm
        rw [bne_zero_eq_testBit] at hb
        exact eq_false_of_ne_true hb
      · exact ih h c (by omega)

theorem simdFindBack_some {w : Nat} {lanes : List Nat} :
    ∀ {m e b : Nat}, simdFindBack w lanes m = some (e, b) →
      e < m ∧ b < w ∧ (lanes.getD e 0).testBit b = true ∧
        (∀ c, b < c → c < w → (lanes.getD e 0).testBit c = false) ∧
        ∀ e2, e < e2 → e2 < m → ∀ c, c < w → (lanes.getD e2 0).testBit c = false := by
  intro m
  induction m with
  | zero =>
    intro e b h
    cases h
  | succ m ih =>
    intro e b h
    rw [simdFindBack] at h
    by_cases hz : lanes.getD m 0 = 0
    · rw [if_pos hz] at h
      obtain ⟨h1, h2, h3, h4, h5⟩ := ih h
      refine ⟨by omega, h2, h3, h4, ?_⟩
      intro e2 he2 he2m c hcw
      by_cases hem : e2 = m
      · subst hem
        rw [hz, Nat.zero_testBit]
      · exact h5 e2 he2 (by omega) c hcw
    · rw [if_neg hz] at h
      cases hscan : bitScanBack (lanes.getD m 0) w with
      | some b2 =>
        rw [hscan] at h
        cases h
        obtain ⟨hb1, hb2, hb3⟩ := bitScanBack_some hscan
        refine ⟨Nat.lt_succ_self m, hb1, hb2, hb3, ?_⟩
        intro e2 he2 he2m c hcw
        omega
      | none =>
        rw [hscan] at h
        obtain ⟨h1, h2, h3, h4, h5⟩ := ih h
        refine ⟨by omega, h2, h3, h4, ?_⟩
        intro e2 he2 he2m c hcw
        by_cases hem : e2 = m
        · subst hem
          exact bitScanBack_none hscan c hcw
        · exact h5 e2 he2 (by omega) c hcw

theorem simdFindBack_none {w : Nat} {lanes : List Nat} :
    ∀ {m : Nat}, simdFindBack w lanes m = none →
      ∀ e, e < m → ∀ c, c < w → (lanes.getD e 0).testBit c = false := by
  intro m
  induction m with
  | zero =>
    intro h e he c hc
    omega
  | succ m ih =>
    intro h e he c hc
    rw [simdFindBack] at h
    by_cases hz : lanes.getD m 0 = 0
    · rw [if_pos hz] at h
      by_cases hem : e = m
      · subst hem
        rw [hz, Nat.zero_testBit]
      · exact ih h e (by omega) c hc
    · rw [if_neg hz] at h
      cases hscan : bitScanBack (lanes.getD m 0) w with
      | some b2 =>
        rw [hscan] at h
        cases h
      | none =>
        rw [hscan] at h
        by_cases hem : e = m
        · subst hem
          exact bitScanBack_none hscan c hc
        · exact ih h e (by omega) c hc

theorem simdNextBack_sum {w N : Nat} {lanes : List Nat} {v : Nat} {lanes1 : List Nat}
    (h : simdNextBack w N lanes = some (v, lanes1)) : lanes1.sum < lanes.sum := by
  unfold simdNextBack at h
  cases hfb : simdFindBack w lanes N with
  | none =>
    rw [hfb] at h
    cases h
  | some eb =>
    obtain ⟨e, b⟩ := eb
    rw [hfb] at h
    cases h
    obtain ⟨heN, hbw, hbit, -, -⟩ := simdFindBack_some hfb
    have hwpos : 0 < w := by omega
    have hdiv : (e * w + b) / w = e := by
      rw [Nat.add_comm, Nat.add_mul_div_right _ _ hwpos, Nat.div_eq_of_lt hbw,
        Nat.zero_add]
    have hmod : (e * w + b) % w = b := by
      rw [Nat.add_comm, Nat.add_mul_mod_self_right, Nat.mod_eq_of_lt hbw]
    have helen : e < lanes.length := by
      by_contra hc
      have hzero : lanes.getD e 0 = 0 := by
        rw [List.getD_eq_getElem?_getD, List.getElem?_eq_none (by omega)]
        rfl
      rw [hzero, Nat.zero_testBit] at hbit
      cases hbit
    unfold simdRemove
    rw [hdiv, hmod]
    have hmask : (1 : Nat) <<< b < 2 ^ w := by
      rw [Nat.one_shiftLeft]
      exact Nat.pow_lt_pow_right (by decide) hbw
    have hnewlt : lanes.getD e 0 &&& (primFull w ^^^ (1 <<< b)) < lanes.getD e 0 := by
      rcases Nat.lt_or_ge (lanes.getD e 0 &&& (primFull w ^^^ (1 <<< b)))
        (lanes.getD e 0) with hlt | hge
      · exact hlt
      · exfalso
        have heq : lanes.getD e 0 &&& (primFull w ^^^ (1 <<< b)) = lanes.getD e 0 :=
          Nat.le_antisymm Nat.and_le_left hge
        have hb2 := congrArg (fun x => x.testBit b) heq
        simp only at hb2
        rw [Nat.testBit_land, testBit_fullXor hmask, testBit_one_shift, hbit] at hb2
        simp [hbw] at hb2
    have hsum := sum_set_getD (lanes.getD e 0 &&& (primFull w ^^^ (1 <<< b)))
      lanes e helen
    omega

/-- The sequence yielded by repeatedly calling `next_back()` on a fresh
iterator (src/bitset/simd.rs lines 351-385, unrolled to a list): each call
removes the yielded bit from the iterator's bitset. -/
def simdBwdList (w N : Nat) (lanes : List Nat) : List Nat :=
  match h : simdNextBack w N lanes with
  | none => []
  | some (v, lanes1) => v :: simdBwdList w N lanes1
termination_by lanes.sum
decreasing_by
  exact simdNextBack_sum h

/-! ### SIMD point-operation lemmas -/

theorem mul_add_div_self {w : Nat} (hw : 0 < w) (e b : Nat) (hb : b < w) :
    (e * w + b) / w = e := by
  rw [Nat.add_comm, Nat.add_mul_div_right _ _ hw, Nat.div_eq_of_lt hb, Nat.zero_add]

theorem mul_add_mod_self {w : Nat} (e b : Nat) (hb : b < w) :
    (e * w + b) % w = b := by
  rw [Nat.add_comm, Nat.add_mul_mod_self_right, Nat.mod_eq_of_lt hb]

theorem simdContains_testBit (w : Nat) (lanes : List Nat) (i : Nat) :
    simdContains w lanes i = (lanes.getD (i / w) 0).testBit (i % w) :=
  primGet_eq_testBit _ _

theorem eq_iff_div_mod_eq {w i j : Nat} :
    j = i ↔ j / w = i / w ∧ j % w = i % w := by
  constructor
  · rintro rfl
    exact ⟨rfl, rfl⟩
  · rintro ⟨h1, h2⟩
    have hj := Nat.div_add_mod j w
    have hi := Nat.div_add_mod i w
    rw [h1, h2] at hj
    omega

theorem simdInsert_contains (w : Nat) (lanes : List Nat) {i : Nat}
    (hiN : i / w < lanes.length) (j : Nat) :
    simdContains w (simdInsert w lanes i).2 j
      = (simdContains w lanes j || decide (j = i)) := by
  rw [simdContains_testBit, simdContains_testBit]
  unfold simdInsert
  simp only
  rw [getD_set]
  by_cases hdiv : j / w = i / w
  · rw [if_pos ⟨hdiv.symm, hiN⟩, Nat.testBit_lor, testBit_one_shift, hdiv]
    congr 1
    rw [decide_eq_decide]
    constructor
    · intro h2
      exact eq_iff_div_mod_eq.mpr ⟨hdiv, h2⟩
    · intro h2
      exact (eq_iff_div_mod_eq.mp h2).2
  · rw [if_neg (fun hc => hdiv hc.1.symm)]
    have hne : decide (j = i) = false :=
      decide_eq_false (fun hc => hdiv (by rw [hc]))
    rw [hne, Bool.or_false]

theorem simdRemove_contains (w : Nat) (hw : 0 < w) (lanes : List Nat) {i : Nat}
    (hiN : i / w < lanes.length) (j : Nat) :
    simdContains w (simdRemove w lanes i) j
      = (simdContains w lanes j && !decide (j = i)) := by
  have hjw : j % w < w := Nat.mod_lt _ hw
  have hmask : (1 : Nat) <<< (i % w) < 2 ^ w := by
    rw [Nat.one_shiftLeft]
    exact Nat.pow_lt_pow_right (by decide) (Nat.mod_lt _ hw)
  rw [simdContains_testBit, simdContains_testBit]
  unfold simdRemove
  rw [getD_set]
  by_cases hdiv : j / w = i / w
  · rw [if_pos ⟨hdiv.symm, hiN⟩, Nat.testBit_land, testBit_fullXor hmask,
      testBit_one_shift, hdiv]
    have hd1 : decide (j % w < w) = true := decide_eq_true hjw
    rw [hd1, Bool.true_and]
    congr 2
    rw [decide_eq_decide]
    constructor
    · intro h2
      exact eq_iff_div_mod_eq.mpr ⟨hdiv, h2⟩
    · intro h2
      exact (eq_iff_div_mod_eq.mp h2).2
  · rw [if_neg (fun hc => hdiv hc.1.symm)]
    have hne : decide (j = i) = false :=
      decide_eq_false (fun hc => hdiv (by rw [hc]))
    rw [hne, Bool.not_false, Bool.and_true]

theorem set_getD_self (l : List Nat) : ∀ k : Nat, l.set k (l.getD k 0) = l := by
  induction l with
  | nil =>
    intro k
    rfl
  | cons x xs ih =>
    intro k
    cases k with
    | zero => simp
    | succ k => rw [List.getD_cons_succ, List.set_cons_succ, ih k]

theorem simdCount_insert (w : Nat) (lanes : List Nat) {i : Nat}
    (hiN : i / w < lanes.length) :
    simdCount (simdInsert w lanes i).2
      = simdCount lanes + (if simdContains w lanes i then 0 else 1) := by
  unfold simdCount simdInsert
  simp only
  rw [List.map_set]
  have hlen : i / w < (lanes.map countOnes).length := by simpa using hiN
  have hsum := sum_set_getD (countOnes (lanes.getD (i / w) 0 ||| (1 <<< (i % w))))
    (lanes.map countOnes) (i / w) hlen
  have hgd : (lanes.map countOnes).getD (i / w) 0 = countOnes (lanes.getD (i / w) 0) := by
    rw [List.getD_eq_getElem?_getD, List.getD_eq_getElem?_getD, List.getElem?_map,
      List.getElem?_eq_getElem hiN]
    rfl
  rw [hgd] at hsum
  by_cases hc : simdContains w lanes i
  · rw [if_pos hc]
    rw [simdContains_testBit] at hc
    rw [lor_two_pow_of_testBit hc] at hsum ⊢
    omega
  · rw [if_neg hc]
    rw [simdContains_testBit] at hc
    rw [countOnes_lor_two_pow _ _ (eq_false_of_ne_true hc)] at hsum ⊢
    omega

/-! ### The SIMD forward iterator yields the canonical ascending sequence -/

theorem simdFwdList_eq {w N : Nat} (hw : 0 < w) (lanes : List Nat) :
    ∀ ce cb, cb ≤ w →
      simdFwdList w N lanes ce cb =
        (List.range' (ce * w + cb) (N * w - (ce * w + cb))).filter
          (fun j => simdContains w lanes j) := by
  refine simdFwdList.induct w N lanes
    (fun ce cb => cb ≤ w →
      simdFwdList w N lanes ce cb =
        (List.range' (ce * w + cb) (N * w - (ce * w + cb))).filter
          (fun j => simdContains w lanes j)) ?_ ?_ ?_ ?_ ?_
  · intro ce cb hce hz ih hcbw
    rw [simdFwdList, dif_pos hce, if_pos hz, ih (Nat.zero_le w), Nat.add_zero,
      Nat.succ_mul]
    have hmono : ce * w + w ≤ N * w := by
      have hm := Nat.mul_le_mul_right w (show ce + 1 ≤ N from hce)
      rw [Nat.succ_mul] at hm
      exact hm
    rw [range'_split (ce * w + cb) (N * w - (ce * w + cb)) (w - cb) (by omega)]
    have he1 : ce * w + cb + (w - cb) = ce * w + w := by omega
    have he2 : N * w - (ce * w + cb) - (w - cb) = N * w - (ce * w + w) := by omega
    rw [he1, he2, List.filter_append]
    have hnil : (List.range' (ce * w + cb) (w - cb)).filter
        (fun j => simdContains w lanes j) = [] := by
      rw [List.filter_eq_nil_iff]
      intro a ha
      rw [List.mem_range'_1] at ha
      have hdiv : a / w = ce := Nat.div_eq_of_lt_le (by omega)
        (by rw [Nat.succ_mul]; omega)
      unfold simdContains
      rw [hdiv, hz]
      simp
    rw [hnil, List.nil_append]
  · intro ce cb hce hz hcb hbit ih hcbw
    have hmono : ce * w + w ≤ N * w := by
      have hm := Nat.mul_le_mul_right w (show ce + 1 ≤ N from hce)
      rw [Nat.succ_mul] at hm
      exact hm
    have hp0 : simdContains w lanes (ce * w + cb) = true := by
      unfold simdContains
      rw [mul_add_div_self hw ce cb hcb, mul_add_mod_self ce cb hcb]
      exact hbit
    have hlen : N * w - (ce * w + cb) = (N * w - (ce * w + cb + 1)) + 1 := by omega
    rw [simdFwdList, dif_pos hce, if_neg hz, dif_pos hcb, if_pos hbit, ih (by omega),
      hlen, List.range'_succ, List.filter_cons_of_pos hp0, ← Nat.add_assoc]
  · intro ce cb hce hz hcb hbit ih hcbw
    have hmono : ce * w + w ≤ N * w := by
      have hm := Nat.mul_le_mul_right w (show ce + 1 ≤ N from hce)
      rw [Nat.succ_mul] at hm
      exact hm
    have hp0 : simdContains w lanes (ce * w + cb) = false := by
      unfold simdContains
      rw [mul_add_div_self hw ce cb hcb, mul_add_mod_self ce cb hcb]
      exact eq_false_of_ne_true hbit
    have hlen : N * w - (ce * w + cb) = (N * w - (ce * w + cb + 1)) + 1 := by omega
    rw [simdFwdList, dif_pos hce, if_neg hz, dif_pos hcb, if_neg hbit, ih (by omega),
      hlen, List.range'_succ, List.filter_cons_of_neg (by simp [hp0]), ← Nat.add_assoc]
  · intro ce cb hce hz hcb ih hcbw
    have hcbe : cb = w := by omega
    rw [simdFwdList, dif_pos hce, if_neg hz, dif_neg hcb, ih (Nat.zero_le w),
      Nat.add_zero, Nat.succ_mul, hcbe]
  · intro ce cb hce hcbw
    rw [simdFwdList, dif_neg hce]
    have hlen : N * w - (ce * w + cb) = 0 := by
      have hm : N * w ≤ ce * w := Nat.mul_le_mul_right w (by omega)
      omega
    rw [hlen]
    rfl

/-! ### The SIMD backward iterator yields the canonical descending sequence -/

theorem getD_ne_zero_lt_length {lanes : List Nat} {e : Nat}
    (h : lanes.getD e 0 ≠ 0) : e < lanes.length := by
  by_contra hc
  apply h
  rw [List.getD_eq_getElem?_getD, List.getElem?_eq_none (by omega)]
  rfl

theorem simdBwdList_eq {w N : Nat} (hw : 0 < w) (lanes : List Nat) :
    simdBwdList w N lanes =
      ((List.range (N * w)).filter (fun j => simdContains w lanes j)).reverse := by
  generalize hgen : lanes.sum = s
  induction s using Nat.strong_induction_on generalizing lanes with
  | _ s ih =>
    subst hgen
    rw [simdBwdList]
    cases hnb : simdNextBack w N lanes with
    | none =>
      have hnone : ∀ j, j < N * w → simdContains w lanes j = false := by
        intro j hj
        unfold simdNextBack at hnb
        cases hfb : simdFindBack w lanes N with
        | some eb =>
          obtain ⟨e, b⟩ := eb
          rw [hfb] at hnb
          cases hnb
        | none =>
          have hjN : j / w < N := by
            rw [Nat.div_lt_iff_lt_mul hw]
            exact hj
          have hall := simdFindBack_none hfb (j / w) hjN (j % w) (Nat.mod_lt _ hw)
          unfold simdContains
          rw [bne_zero_eq_testBit]
          exact hall
      have hnil : (List.range (N * w)).filter (fun j => simdContains w lanes j) = [] := by
        rw [List.filter_eq_nil_iff]
        intro a ha
        rw [List.mem_range] at ha
        simp [hnone a ha]
      rw [hnil]
      rfl
    | some vl =>
      obtain ⟨v, lanes1⟩ := vl
      have hsumlt := simdNextBack_sum hnb
      unfold simdNextBack at hnb
      cases hfb : simdFindBack w lanes N with
      | none =>
        rw [hfb] at hnb
        cases hnb
      | some eb =>
        obtain ⟨e, b⟩ := eb
        rw [hfb] at hnb
        cases hnb
        obtain ⟨heN, hbw, hbit, habove_bits, habove_lanes⟩ := simdFindBack_some hfb
        show (e * w + b) :: simdBwdList w N (simdRemove w lanes (e * w + b))
            = ((List.range (N * w)).filter (fun j => simdContains w lanes j)).reverse
        have hdiv : (e * w + b) / w = e := mul_add_div_self hw e b hbw
        have hmod : (e * w + b) % w = b := mul_add_mod_self e b hbw
        have helen : e < lanes.length :=
          getD_ne_zero_lt_length (fun hz => by rw [hz, Nat.zero_testBit] at hbit; cases hbit)
        have hmono : e * w + w ≤ N * w := by
          have hm := Nat.mul_le_mul_right w (show e + 1 ≤ N from heN)
          rw [Nat.succ_mul] at hm
          exact hm
        have hmN : e * w + b < N * w := by omega
        have hcm : simdContains w lanes (e * w + b) = true := by
          unfold simdContains
          rw [bne_zero_eq_testBit, hdiv, hmod]
          exact hbit
        have hmax : ∀ j, e * w + b < j → j < N * w → simdContains w lanes j = false := by
          intro j h1 h2
          have hjw : j % w < w := Nat.mod_lt _ hw
          have hjN : j / w < N := by
            rw [Nat.div_lt_iff_lt_mul hw]
            exact h2
          unfold simdContains
          rw [bne_zero_eq_testBit]
          rcases Nat.lt_trichotomy (j / w) e with hk | hk | hk
          · exfalso
            have hdm := Nat.div_add_mod j w
            have hle : w * (j / w + 1) ≤ w * e := Nat.mul_le_mul_left w (by omega)
            rw [Nat.mul_succ] at hle
            have hew : w * e = e * w := Nat.mul_comm w e
            omega
          · rw [hk]
            apply habove_bits
            · have hdm := Nat.div_add_mod j w
              rw [hk] at hdm
              have hew : w * e = e * w := Nat.mul_comm w e
              omega
            · exact hjw
          · exact habove_lanes _ hk hjN _ hjw
        have hrem : ∀ j, simdContains w (simdRemove w lanes (e * w + b)) j
            = (simdContains w lanes j && !decide (j = e * w + b)) := by
          intro j
          exact simdRemove_contains w hw lanes (by rw [hdiv]; exact helen) j
        have hfilter : (List.range (N * w)).filter (fun j => simdContains w lanes j)
            = (List.range (N * w)).filter
                (fun j => simdContains w (simdRemove w lanes (e * w + b)) j)
              ++ [e * w + b] := by
          rw [List.range_eq_range',
            range'_split 0 (N * w) (e * w + b) (le_of_lt hmN)]
          have hlen2 : N * w - (e * w + b) = (N * w - (e * w + b) - 1) + 1 := by omega
          rw [Nat.zero_add, hlen2, List.range'_succ, List.filter_append,
            List.filter_append, List.filter_cons_of_pos hcm,
            List.filter_cons_of_neg (by simp [hrem])]
          have hlowcongr : (List.range' 0 (e * w + b)).filter
                (fun j => simdContains w lanes j)
              = (List.range' 0 (e * w + b)).filter
                (fun j => simdContains w (simdRemove w lanes (e * w + b)) j) := by
            apply List.filter_congr
            intro j hj
            rw [List.mem_range'_1] at hj
            rw [hrem]
            have hne : decide (j = e * w + b) = false :=
              decide_eq_false (by omega)
            rw [hne, Bool.not_false, Bool.and_true]
          have hhiguard : ∀ p2 : Nat → Bool,
              (∀ j, e * w + b < j → j < N * w → p2 j = false) →
              (List.range' (e * w + b + 1) (N * w - (e * w + b) - 1)).filter p2 = [] := by
            intro p2 hp2
            rw [List.filter_eq_nil_iff]
            intro a ha
            rw [List.mem_range'_1] at ha
            simp [hp2 a (by omega) (by omega)]
          rw [hhiguard _ (fun j h1 h2 => hmax j h1 h2),
            hhiguard _ (fun j h1 h2 => by rw [hrem, hmax j h1 h2, Bool.false_and]),
            hlowcongr]
          simp
        rw [hfilter, List.reverse_append, List.reverse_singleton,
          List.singleton_append]
        have hih := ih (simdRemove w lanes (e * w + b)).sum hsumlt
          (simdRemove w lanes (e * w + b)) rfl
        rw [hih]

/-! ### The sparse bitset

A sparse state is the list of `(block_index, word)` entries, in storage
order. -/

/-- Word-level `insert` for a sparse entry's word.
Modelled from the spec: `insert(i) -> bool` sets bit `i` and "returns true
iff it transitioned from unset to set".  The snapshot's primitives.rs `set`
(lines 79-81) returns unit, while mod.rs `BitsetOps::insert` (line 11) and
sparse.rs (line 91, `return bits.set(offset)`) require the Bool-returning
revision of the same `bits | (1 << index)` update; this definition supplies
that missing revision. -/
def primInsertB (bits i : Nat) : Bool × Nat :=
  (bits &&& (1 <<< i) == 0, bits ||| (1 <<< i))

/-- The scan loop of `SparseBitset::set` (src/bitset/sparse.rs lines
87-97): walk the entries; on the first block hit, delegate to the
word-level insert; when no entry matches, `push_component` appends a fresh
entry holding only `offset` set (lines 52-57 and 72-76). -/
def sparseSetGo (bi off : Nat) : List (Nat × Nat) → Bool × List (Nat × Nat)
  | [] => (true, [(bi, (primInsertB 0 off).2)])
  | (idx, bits) :: rest =>
    if idx = bi then
      ((primInsertB bits off).1, (idx, (primInsertB bits off).2) :: rest)
    else
      ((sparseSetGo bi off rest).1, (idx, bits) :: (sparseSetGo bi off rest).2)

/-- `SparseBitset::set` (src/bitset/sparse.rs lines 87-97):
`(index, offset) = (value / w, value % w)`, then the scan loop. -/
def sparseSet (w : Nat) (entries : List (Nat × Nat)) (v : Nat) :
    Bool × List (Nat × Nat) :=
  sparseSetGo (v / w) (v % w) entries

/-- The scan loop of `SparseBitset::get` (src/bitset/sparse.rs lines
108-116): first block hit answers; an absent block gives `false`. -/
def sparseGetGo (bi off : Nat) : List (Nat × Nat) → Bool
  | [] => false
  | (idx, bits) :: rest => if idx = bi then primGet bits off else sparseGetGo bi off rest

/-- `SparseBitset::get` (src/bitset/sparse.rs lines 108-116). -/
def sparseGet (w : Nat) (entries : List (Nat × Nat)) (v : Nat) : Bool :=
  sparseGetGo (v / w) (v % w) entries

/-- `SparseBitset::count` (src/bitset/sparse.rs lines 118-124): sum of the
stored words' popcounts. -/
def sparseCount (entries : List (Nat × Nat)) : Nat :=
  (entries.map (fun e => countOnes e.2)).sum

theorem sparseSetGo_ret (bi off : Nat) :
    ∀ entries, (sparseSetGo bi off entries).1 = !sparseGetGo bi off entries := by
  intro entries
  induction entries with
  | nil => rfl
  | cons e rest ih =>
    obtain ⟨idx, bits⟩ := e
    rw [sparseSetGo, sparseGetGo]
    by_cases h : idx = bi
    · rw [if_pos h, if_pos h]
      unfold primInsertB primGet
      simp only
      cases hb : (bits &&& (1 <<< off) == 0) <;> simp [bne, hb]
    · rw [if_neg h, if_neg h]
      exact ih

theorem sparseSetGo_get (bi off : Nat) :
    ∀ entries, sparseGetGo bi off (sparseSetGo bi off entries).2 = true := by
  intro entries
  induction entries with
  | nil =>
    rw [sparseSetGo, sparseGetGo, if_pos rfl]
    unfold primInsertB
    simp only
    rw [primGet_eq_testBit, Nat.testBit_lor, testBit_one_shift]
    simp
  | cons e rest ih =>
    obtain ⟨idx, bits⟩ := e
    rw [sparseSetGo]
    by_cases h : idx = bi
    · rw [if_pos h]
      rw [sparseGetGo, if_pos h]
      unfold primInsertB primGet
      simp only
      rw [bne_zero_eq_testBit, Nat.testBit_lor, testBit_one_shift]
      simp
    · rw [if_neg h]
      rw [sparseGetGo, if_neg h]
      exact ih

theorem sparseSetGo_idem (bi off : Nat) :
    ∀ entries, sparseGetGo bi off entries = true →
      (sparseSetGo bi off entries).2 = entries := by
  intro entries
  induction entries with
  | nil =>
    intro h
    cases h
  | cons e rest ih =>
    obtain ⟨idx, bits⟩ := e
    intro h
    rw [sparseGetGo] at h
    rw [sparseSetGo]
    by_cases hb : idx = bi
    · rw [if_pos hb] at h
      rw [if_pos hb]
      unfold primInsertB
      simp only
      rw [primGet_eq_testBit] at h
      rw [lor_two_pow_of_testBit h]
    · rw [if_neg hb] at h
      rw [if_neg hb, ih h]

theorem sparseSetGo_count (bi off : Nat) :
    ∀ entries, sparseCount (sparseSetGo bi off entries).2
      = sparseCount entries + (if sparseGetGo bi off entries then 0 else 1) := by
  intro entries
  induction entries with
  | nil =>
    rw [sparseSetGo, sparseGetGo]
    unfold sparseCount primInsertB
    simp only [List.map_cons, List.map_nil, List.sum_cons, List.sum_nil]
    rw [countOnes_lor_two_pow _ _ (Nat.zero_testBit off), countOnes_zero]
    simp
  | cons e rest ih =>
    obtain ⟨idx, bits⟩ := e
    rw [sparseSetGo, sparseGetGo]
    by_cases h : idx = bi
    · rw [if_pos h, if_pos h]
      unfold sparseCount primInsertB
      simp only [List.map_cons, List.sum_cons]
      by_cases hbit : (bits).testBit off
      · rw [primGet_eq_testBit, hbit]
        rw [lor_two_pow_of_testBit hbit]
        simp
      · rw [primGet_eq_testBit]
        rw [countOnes_lor_two_pow _ _ (eq_false_of_ne_true hbit)]
        simp [hbit]
        omega
    · rw [if_neg h, if_neg h]
      unfold sparseCount at ih ⊢
      simp only [List.map_cons, List.sum_cons]
      rw [ih]
      by_cases hg : sparseGetGo bi off rest <;> simp [hg] <;> omega

/-! ### The packed iterator: a flat_map of the primitive iterators -/

/-- Forward consumption of `PackedBitsetIterator` (src/bitset/packed.rs
lines 265-281): `self.0.iter().enumerate().flat_map(|(i, p)|
p.into_iter().map(move |b| i * P::fixed_capacity() + b))`, each primitive
sub-iterator consumed forward. -/
def packedFwdList (w : Nat) (ps : List Nat) : List Nat :=
  ps.enum.flatMap (fun p => (primFwdList p.2).map (fun b => p.1 * w + b))

/-- Backward consumption of the same chain (src/bitset/packed.rs lines
283-287): `next_back` drains the enumerated sub-components from the last
one towards the first, each consumed by the primitive `next_back`
(src/bitset/primitives.rs lines 185-206). -/
def packedBwdList (w : Nat) (ps : List Nat) : List Nat :=
  ps.enum.reverse.flatMap (fun p => (primBwdList w p.2).map (fun b => p.1 * w + b))

theorem packed_lane_filter (w : Nat) (hw : 0 < w) (q ps : List Nat) (p : Nat) :
    (List.range' (q.length * w) w).filter (fun j => packedGet w (q ++ p :: ps) j)
      = (bitsList w p).map (fun b => q.length * w + b) := by
  have hgd : (q ++ p :: ps).getD q.length 0 = p := by
    rw [List.getD_eq_getElem?_getD, List.getElem?_append_right (Nat.le_refl _),
      Nat.sub_self]
    simp
  rw [List.range'_eq_map_range, List.filter_map]
  unfold bitsList
  congr 1
  apply List.filter_congr
  intro b hb
  rw [List.mem_range] at hb
  simp only [Function.comp_apply]
  unfold packedGet
  rw [mul_add_div_self hw _ _ hb, mul_add_mod_self _ _ hb, hgd, primGet_eq_testBit]

theorem packed_range_split (w k n : Nat) :
    List.range' (k * w) ((n + 1) * w)
      = List.range' (k * w) w ++ List.range' (k * w + w) (n * w) := by
  have h1 : (n + 1) * w = w + n * w := by
    rw [Nat.succ_mul]
    omega
  rw [h1, range'_split (k * w) (w + n * w) w (by omega)]
  have h2 : w + n * w - w = n * w := by omega
  rw [h2]

theorem packedFwd_aux (w : Nat) (hw : 0 < w) :
    ∀ (ps q : List Nat), (∀ p ∈ ps, p < 2 ^ w) →
      (List.enumFrom q.length ps).flatMap
          (fun p => (primFwdList p.2).map (fun b => p.1 * w + b))
        = (List.range' (q.length * w) (ps.length * w)).filter
            (fun j => packedGet w (q ++ ps) j) := by
  intro ps
  induction ps with
  | nil =>
    intro q _
    simp
  | cons p ps ih =>
    intro q hps
    simp only [List.enumFrom_cons, List.flatMap_cons, List.length_cons]
    rw [packed_range_split w q.length ps.length, List.filter_append]
    congr 1
    · rw [packed_lane_filter w hw q ps p,
        primFwdList_eq_bitsList p (hps p (List.mem_cons_self p ps))]
    · have ihq := ih (q ++ [p]) (fun p2 hp2 => hps p2 (List.mem_cons_of_mem p hp2))
      simp only [List.length_append, List.length_cons, List.length_nil,
        Nat.zero_add] at ihq
      rw [Nat.succ_mul] at ihq
      rw [List.append_cons q p ps]
      exact ihq

theorem packedFwdList_eq (w : Nat) (hw : 0 < w) (ps : List Nat)
    (hps : ∀ p ∈ ps, p < 2 ^ w) :
    packedFwdList w ps
      = (List.range (ps.length * w)).filter (fun j => packedGet w ps j) := by
  have h := packedFwd_aux w hw ps [] hps
  rw [List.length_nil, Nat.zero_mul, List.nil_append] at h
  unfold packedFwdList
  rw [List.enum_eq_enumFrom, List.range_eq_range']
  exact h

theorem packedBwd_aux (w : Nat) (hw : 0 < w) :
    ∀ (ps q : List Nat), (∀ p ∈ ps, p < 2 ^ w) →
      (List.enumFrom q.length ps).reverse.flatMap
          (fun p => (primBwdList w p.2).map (fun b => p.1 * w + b))
        = ((List.range' (q.length * w) (ps.length * w)).filter
            (fun j => packedGet w (q ++ ps) j)).reverse := by
  intro ps
  induction ps with
  | nil =>
    intro q _
    simp
  | cons p ps ih =>
    intro q hps
    simp only [List.enumFrom_cons, List.reverse_cons, List.flatMap_append,
      List.length_cons]
    rw [packed_range_split w q.length ps.length, List.filter_append,
      List.reverse_append]
    congr 1
    · have ihq := ih (q ++ [p]) (fun p2 hp2 => hps p2 (List.mem_cons_of_mem p hp2))
      simp only [List.length_append, List.length_cons, List.length_nil,
        Nat.zero_add] at ihq
      rw [Nat.succ_mul] at ihq
      rw [List.append_cons q p ps]
      exact ihq
    · rw [List.flatMap_cons, List.flatMap_nil, List.append_nil]
      simp only
      rw [primBwdList_eq_reverse p (hps p (List.mem_cons_self p ps)),
        List.map_reverse, packed_lane_filter w hw q ps p]

theorem packedBwdList_eq (w : Nat) (hw : 0 < w) (ps : List Nat)
    (hps : ∀ p ∈ ps, p < 2 ^ w) :
    packedBwdList w ps
      = ((List.range (ps.length * w)).filter (fun j => packedGet w ps j)).reverse := by
  have h := packedBwd_aux w hw ps [] hps
  rw [List.length_nil, Nat.zero_mul, List.nil_append] at h
  unfold packedBwdList
  rw [List.enum_eq_enumFrom, List.range_eq_range']
  exact h

/-! ### The SIMD range insert reaches exactly the requested clamped range -/

theorem simdInsert_length (w : Nat) (lanes : List Nat) (i : Nat) :
    (simdInsert w lanes i).2.length = lanes.length := by
  unfold simdInsert
  simp

theorem aligned_le (w a j : Nat) (hw : 0 < w) (ha : a % w = 0) :
    a ≤ j ↔ a / w ≤ j / w := by
  constructor
  · exact fun h => Nat.div_le_div_right h
  · intro h
    have h1 : w * (a / w) ≤ w * (j / w) := Nat.mul_le_mul_left w h
    have h2 : w * (j / w) ≤ j := by
      rw [Nat.mul_comm]
      exact Nat.div_mul_le_self j w
    have h3 := Nat.div_add_mod a w
    omega

theorem aligned_lt (w b j : Nat) (hw : 0 < w) (hb : b % w = 0) :
    j < b ↔ j / w < b / w := by
  have h := aligned_le w b j hw hb
  rw [← Nat.not_le, ← Nat.not_le, h]

theorem foldl_insert_contains (w N : Nat) (hw : 0 < w) (j : Nat) :
    ∀ (L : List Nat) (lanes : List Nat), lanes.length = N →
      simdContains w
        (L.foldl (fun l i => if i < N * w then (simdInsert w l i).2 else l) lanes) j
      = (simdContains w lanes j
          || L.any (fun x => decide (j = x) && decide (x < N * w))) := by
  intro L
  induction L with
  | nil =>
    intro lanes _
    simp
  | cons x L ih =>
    intro lanes hlen
    rw [List.foldl_cons, List.any_cons]
    by_cases hx : x < N * w
    · rw [if_pos hx]
      have hxN : x / w < lanes.length := by
        rw [hlen, Nat.div_lt_iff_lt_mul hw]
        exact hx
      rw [ih _ (by rw [simdInsert_length, hlen]), simdInsert_contains w lanes hxN j]
      rw [decide_eq_true hx, Bool.and_true, Bool.or_assoc]
    · rw [if_neg hx, ih _ hlen, decide_eq_false hx, Bool.and_false, Bool.false_or]

theorem foldl_full_contains (w N : Nat) (hw : 0 < w) (j : Nat) (hj : j < N * w) :
    ∀ (E : List Nat) (lanes : List Nat), lanes.length = N →
      simdContains w
        (E.foldl (fun l e => if e < N then l.set e (primFull w) else l) lanes) j
      = (simdContains w lanes j || E.any (fun e => decide (j / w = e))) := by
  intro E
  induction E with
  | nil =>
    intro lanes _
    simp
  | cons e E ih =>
    intro lanes hlen
    rw [List.foldl_cons, List.any_cons]
    by_cases he : e < N
    · rw [if_pos he, ih _ (by rw [List.length_set, hlen])]
      have hc : simdContains w (lanes.set e (primFull w)) j
          = (simdContains w lanes j || decide (j / w = e)) := by
        rw [simdContains_testBit, simdContains_testBit, getD_set]
        by_cases hde : e = j / w
        · rw [if_pos ⟨hde, by omega⟩, testBit_primFull,
            decide_eq_true (Nat.mod_lt _ hw), decide_eq_true hde.symm, Bool.or_true]
        · rw [if_neg (fun hc2 => hde hc2.1),
            decide_eq_false (fun hc2 => hde hc2.symm), Bool.or_false]
      rw [hc, Bool.or_assoc]
    · rw [if_neg he, ih _ hlen]
      have hjN : j / w < N := by
        rw [Nat.div_lt_iff_lt_mul hw]
        exact hj
      rw [decide_eq_false (fun hc2 => he (by omega)), Bool.false_or]

theorem simdInsertRange_contains {w N : Nat} (hw : 0 < w) (lanes : List Nat)
    (hlen : lanes.length = N) {a b : Nat} (hab : a ≤ b) {j : Nat} (hj : j < N * w) :
    simdContains w (simdInsertRange w N lanes a b) j
      = (simdContains w lanes j || decide (a ≤ j ∧ j < b)) := by
  unfold simdInsertRange
  by_cases hal : a % w = 0 ∧ b % w = 0
  · rw [if_pos hal, foldl_full_contains w N hw j hj _ lanes hlen]
    congr 1
    have hdiv : a / w ≤ b / w := Nat.div_le_div_right hab
    by_cases hin : a ≤ j ∧ j < b
    · rw [decide_eq_true hin, List.any_eq_true]
      refine ⟨j / w, ?_, by simp⟩
      rw [List.mem_range'_1]
      constructor
      · exact (aligned_le w a j hw hal.1).mp hin.1
      · have h2 := (aligned_lt w b j hw hal.2).mp hin.2
        omega
    · rw [decide_eq_false hin, List.any_eq_false]
      intro e he2
      rw [List.mem_range'_1] at he2
      simp only [decide_eq_true_eq]
      intro hde
      exact hin ⟨(aligned_le w a j hw hal.1).mpr (by omega),
        (aligned_lt w b j hw hal.2).mpr (by omega)⟩
  · rw [if_neg hal, foldl_insert_contains w N hw j _ lanes hlen]
    congr 1
    by_cases hin : a ≤ j ∧ j < b
    · rw [decide_eq_true hin, List.any_eq_true]
      refine ⟨j, ?_, ?_⟩
      · rw [List.mem_range'_1]
        omega
      · rw [decide_eq_true rfl, decide_eq_true hj, Bool.and_true]
    · rw [decide_eq_false hin, List.any_eq_false]
      intro x hx
      rw [List.mem_range'_1] at hx
      cases hjx : decide (j = x) with
      | false => simp
      | true =>
        have hxj : j = x := of_decide_eq_true hjx
        exact ((hin ⟨by omega, by omega⟩).elim)

/-! ### The bounded array store (`ArrayVec`) behind the sparse bitset -/

/-- `ArrayVec<SparseEntry, N>` (src/stack_vec.rs lines 5-9): a backing
array of `N` slots of which the first `len` are live.  Entries are the
`(block_index, word)` pairs of the sparse state. -/
structure ArrayVecM (N : Nat) where
  data : List (Nat × Nat)
  len : Nat

/-- `ArrayVec::push_unchecked` (src/stack_vec.rs lines 51-54):
`*self.data.get_unchecked_mut(self.len) = value; self.len += 1`.  The body
holds no assertion of any kind, so when `len = N` the write through
`get_unchecked_mut` is an out-of-bounds access (`RtErr.ub`) in
debug-instrumented and optimized builds alike; the `debug` flag is
deliberately unused. -/
def pushUnchecked (debug : Bool) (N : Nat) (av : ArrayVecM N) (value : Nat × Nat) :
    Except RtErr (ArrayVecM N) :=
  if av.len < N then Except.ok ⟨av.data.set av.len value, av.len + 1⟩
  else Except.error RtErr.ub

/-- `Components::push_component` for `ArrayVec<SparseEntry<U>, N>`
(src/bitset/sparse.rs lines 52-57): build a fresh word with only `offset`
set, then `push_unchecked` it together with the block index. -/
def pushComponent (debug : Bool) (N : Nat) (av : ArrayVecM N) (index off : Nat) :
    Except RtErr (ArrayVecM N) :=
  pushUnchecked debug N av (index, primSet primEmpty off)

/-- `SparseBitset::set` over the `ArrayVec` store (src/bitset/sparse.rs
lines 87-97): the scan loop walks `as_mut_slice()`, i.e. the first `len`
slots; when the block of `v` is present the word edit happens in place
(the in-slice part of `sparseSetGo`), otherwise the loop falls through to
`push_component`. -/
def sparseAvSet (debug : Bool) (w N : Nat) (av : ArrayVecM N) (v : Nat) :
    Except RtErr (Bool × ArrayVecM N) :=
  if (av.data.take av.len).any (fun e => e.1 == v / w) then
    Except.ok ((sparseSetGo (v / w) (v % w) (av.data.take av.len)).1,
      ⟨(sparseSetGo (v / w) (v % w) (av.data.take av.len)).2 ++ av.data.drop av.len,
        av.len⟩)
  else
    Except.map (fun av1 => (true, av1)) (pushComponent debug N av (v / w) (v % w))

/-! ### Checked and unchecked point entry points -/

/-- `PrimitiveBitset::set` (src/bitset/primitives.rs lines 79-81) with its
build-dependent shift semantics: `bits | 1 << index` carries no bounds
assertion, but for `index ≥ w` the shift itself traps in a
debug-instrumented build (`RtErr.panic`) and is masked to `index % w` in
an optimized build. -/
def primSetChecked (debug : Bool) (w bits i : Nat) : Except RtErr Nat :=
  if debug ∧ w ≤ i then Except.error RtErr.panic
  else Except.ok (bits ||| (1 <<< (i % w)))

/-- `PrimitiveBitset::unset` (src/bitset/primitives.rs lines 101-103) with
build-dependent shift semantics, as in `primSetChecked`; the in-range edit
is `primUnset` at `index % w`. -/
def primUnsetChecked (debug : Bool) (w bits i : Nat) : Except RtErr Nat :=
  if debug ∧ w ≤ i then Except.error RtErr.panic
  else Except.ok (primUnset w bits (i % w))

/-- `PrimitiveBitset::get` (src/bitset/primitives.rs lines 125-127) with
build-dependent shift semantics, as in `primSetChecked`. -/
def primGetChecked (debug : Bool) (w bits i : Nat) : Except RtErr Bool :=
  if debug ∧ w ≤ i then Except.error RtErr.panic
  else Except.ok (primGet bits (i % w))

/-- `PrimitiveBitset::set_unchecked` delegates to `set` (the `unsafe` tier
of primitives.rs reuses the same shift), so it has the same build-dependent
behavior. -/
def primSetUnchecked (debug : Bool) (w bits i : Nat) : Except RtErr Nat :=
  primSetChecked debug w bits i

/-- `PackedBitset::set` (src/bitset/packed.rs lines 78-82):
`self.0[element_index].set(bit_index)`.  The slice index panics on
`element_index ≥ N` in every build, debug or optimized. -/
def packedSetChecked (debug : Bool) (w N : Nat) (ps : List Nat) (i : Nat) :
    Except RtErr (List Nat) :=
  if N ≤ i / w then Except.error RtErr.panic
  else Except.ok (packedSet w ps i)

/-- `PackedBitset::set_unchecked` (src/bitset/packed.rs lines 224-230):
`get_unchecked_mut(element_index)` performs no validation in any build; an
out-of-range index is an out-of-bounds access (`RtErr.ub`). -/
def packedSetUnchecked (debug : Bool) (w N : Nat) (ps : List Nat) (i : Nat) :
    Except RtErr (List Nat) :=
  if N ≤ i / w then Except.error RtErr.ub
  else Except.ok (packedSet w ps i)

/-! ### Shared helper lemmas for the claim theorems -/

theorem filter_primGet (w bits : Nat) :
    (List.range w).filter (fun j => primGet bits j) = bitsList w bits := by
  unfold bitsList
  apply List.filter_congr
  intro j _
  rw [primGet_eq_testBit]

theorem primSetRange_clamp {w : Nat} (u a b : Nat) (hb : w ≤ b) :
    primSetRange w u a b = primSetRange w u a w := by
  unfold primSetRange
  rw [if_pos hb, if_pos (Nat.le_refl w)]

theorem primUnsetRange_testBit_ge {w : Nat} (u : Nat) {s e j : Nat} (hew : e ≤ w)
    (hj : w ≤ j) : (primUnsetRange w u s e).testBit j = false := by
  unfold primUnsetRange
  by_cases h : w ≤ e
  · rw [if_pos h, Nat.testBit_land,
      testBit_ge_width (Nat.xor_lt_two_pow (primFull_lt w)
        (Nat.mod_lt _ (Nat.pos_pow_of_pos _ (by decide)))) hj,
      Bool.and_false]
  · rw [if_neg h, Nat.testBit_land,
      testBit_ge_width (Nat.xor_lt_two_pow (primFull_lt w)
        (intervalMask_lt s hew)) hj,
      Bool.and_false]

theorem zipWith_getD (f : Nat → Nat → Nat) (hf : f 0 0 = 0) :
    ∀ (xs ys : List Nat), xs.length = ys.length → ∀ k,
      (List.zipWith f xs ys).getD k 0 = f (xs.getD k 0) (ys.getD k 0) := by
  intro xs
  induction xs with
  | nil =>
    intro ys h k
    have hys : ys = [] := List.eq_nil_of_length_eq_zero h.symm
    subst hys
    simp [hf]
  | cons x xs ih =>
    intro ys h k
    cases ys with
    | nil => simp at h
    | cons y ys =>
      cases k with
      | zero => simp
      | succ k =>
        simp only [List.zipWith_cons_cons, List.getD_cons_succ]
        exact ih ys (by simpa using h) k

theorem simdInsert_ret (w : Nat) (lanes : List Nat) (i : Nat) :
    (simdInsert w lanes i).1 = !simdContains w lanes i := by
  unfold simdInsert simdContains
  simp [bne]

theorem simdInsert_already {w : Nat} {lanes : List Nat} {i : Nat}
    (h : simdContains w lanes i = true) : (simdInsert w lanes i).2 = lanes := by
  unfold simdInsert
  simp only
  rw [simdContains_testBit] at h
  rw [lor_two_pow_of_testBit h]
  exact set_getD_self lanes _

/-! ## The claim theorems -/

/-- C1: the spec states that `remove(i)` clears bit `i` and only bit `i`,
leaving `contains(j)` unchanged for every `j ≠ i`, and that `remove` on an
absent index is a no-op.  The primitive embedding refutes this: on the `u8`
word `0b00100100` (bits 2 and 5 set), `unset(5)` also clears bit 2, and
`unset(7)` — an absent index — changes the state.  The cause is operator
precedence at src/bitset/primitives.rs line 102: `self.bits & !U::one() <<
index` parses as `bits & ((!1) << index)`, a mask that clears bit `index`
and every bit below it. -/
theorem c1_remove_clears_lower_bits :
    primGet 36 2 = true ∧ primGet (primUnset 8 36 5) 2 = false
      ∧ primGet 36 7 = false ∧ primUnset 8 36 7 ≠ 36 := by
  decide

/-- C2: `insert(i)` returns true exactly on the unset→set transition, a
second insert returns false and leaves the state unchanged, and `count()`
grows by 1 on the first call only.  Verified for the SIMD insert
(src/bitset/simd.rs lines 139-151) and for the sparse `set`
(src/bitset/sparse.rs lines 87-97), the latter over the Bool-returning word
insert `primInsertB` modelled from the spec where the snapshot's
primitives.rs `set` returns unit. -/
theorem c2_insert_transition (w : Nat) (lanes : List Nat) {i : Nat}
    (hi : i / w < lanes.length) (entries : List (Nat × Nat)) (v : Nat) :
    ((simdInsert w lanes i).1 = !simdContains w lanes i
      ∧ simdContains w (simdInsert w lanes i).2 i = true
      ∧ (simdInsert w (simdInsert w lanes i).2 i).1 = false
      ∧ (simdInsert w (simdInsert w lanes i).2 i).2 = (simdInsert w lanes i).2
      ∧ simdCount (simdInsert w lanes i).2
          = simdCount lanes + (if simdContains w lanes i then 0 else 1))
    ∧ ((sparseSet w entries v).1 = !sparseGet w entries v
      ∧ sparseGet w (sparseSet w entries v).2 v = true
      ∧ (sparseSet w (sparseSet w entries v).2 v).1 = false
      ∧ (sparseSet w (sparseSet w entries v).2 v).2 = (sparseSet w entries v).2
      ∧ sparseCount (sparseSet w entries v).2
          = sparseCount entries + (if sparseGet w entries v then 0 else 1)) := by
  have hc1 : simdContains w (simdInsert w lanes i).2 i = true := by
    rw [simdInsert_contains w lanes hi i]
    simp
  have hs3 : (sparseSet w (sparseSet w entries v).2 v).1 = false := by
    have h1 := sparseSetGo_ret (v / w) (v % w) (sparseSetGo (v / w) (v % w) entries).2
    rw [sparseSetGo_get (v / w) (v % w) entries] at h1
    exact h1
  refine ⟨⟨simdInsert_ret w lanes i, hc1, ?_, simdInsert_already hc1,
      simdCount_insert w lanes hi⟩,
    sparseSetGo_ret _ _ entries, sparseSetGo_get _ _ entries, hs3,
    sparseSetGo_idem _ _ _ (sparseSetGo_get _ _ entries),
    sparseSetGo_count _ _ entries⟩
  rw [simdInsert_ret, hc1]
  rfl

theorem c2_witness :
    simdContains 8 (simdInsert 8 [0] 3).2 3 = true :=
  (c2_insert_transition 8 [0] (by decide) [] 5).1.2.1

/-- C3 (amended): after `insert_range(a..b)` every index of the clamped
range reads true and every bit outside it is unchanged.  For the primitive
`set_range` this holds whenever `a < w`, with the end clamped to `min b w`
(at `a = b = w` the release-build shift masks `start` to 0 and sets the
whole word — see the counterexample); the packed `set_range` satisfies it
for `a ≤ b ≤ N * w`; the SIMD `insert_range` satisfies it for any `b`,
clamping past the capacity. -/
theorem c3_insert_range (w N : Nat) (hw : 0 < w) (u : Nat) (ps lanes : List Nat)
    (hps : ps.length = N) (hlanes : lanes.length = N)
    (a b : Nat) (hab : a ≤ b) (j : Nat) :
    (a < w → j < w →
      (primSetRange w u a b).testBit j
        = (u.testBit j || decide (a ≤ j ∧ j < min b w)))
    ∧ (b ≤ N * w → j < N * w →
        packedGet w (packedSetRange w N ps a b) j
          = (packedGet w ps j || decide (a ≤ j ∧ j < b)))
    ∧ (j < N * w →
        simdContains w (simdInsertRange w N lanes a b) j
          = (simdContains w lanes j || decide (a ≤ j ∧ j < b))) := by
  refine ⟨?_, ?_, ?_⟩
  · intro haw hjw
    by_cases hbw : b ≤ w
    · rw [min_eq_left hbw]
      exact primSetRange_testBit u haw hab hbw hjw
    · rw [primSetRange_clamp u a b (by omega), min_eq_right (by omega : w ≤ b)]
      exact primSetRange_testBit u haw (by omega) (Nat.le_refl w) hjw
  · intro hbN hj
    unfold packedSetRange
    exact packedRangeCore_testBit (primSetRange w) (primFull w)
      (fun x y => x || y)
      (fun u2 s e j2 hsw hse hew hj2 => primSetRange_testBit u2 hsw hse hew hj2)
      (fun x j2 hj2 => by simp [testBit_primFull, hj2])
      (fun x => Bool.or_false x)
      ps a b hw hps hab hbN j hj
  · intro hj
    exact simdInsertRange_contains hw lanes hlanes hab hj

theorem c3_witness :
    (primSetRange 8 0 2 5).testBit 3
      = (Nat.testBit 0 3 || decide (2 ≤ 3 ∧ 3 < min 5 8)) :=
  (c3_insert_range 8 1 (by decide) 0 [0] [0] rfl rfl 2 5 (by decide) 3).1
    (by decide) (by decide)

/-- C3 counterexample: `insert_range(8..8)` on an empty `u8` word — an empty
range with `0 ≤ a ≤ b ≤ capacity` — must leave every bit unaffected, yet the
release-build `set_range` turns bit 0 on. -/
theorem c3_counterexample :
    (primSetRange 8 0 8 8).testBit 0 ≠ (0 : Nat).testBit 0 := by
  decide

/-- C4 (amended): `insert_range(a..b)` followed by `remove_range(a..b)`
restores the prior state when the prior state holds no bit inside `[a, b)`
(and `a < w` for the primitive); in general the pair clears every prior bit
inside `[a, b)`, so the unconditional round-trip law of the spec fails —
see the counterexample. -/
theorem c4_round_trip (w N : Nat) (hw : 0 < w) :
    (∀ u a b, u < 2 ^ w → a < w → a ≤ b → b ≤ w →
      (∀ j, a ≤ j → j < b → u.testBit j = false) →
      primUnsetRange w (primSetRange w u a b) a b = u)
    ∧ (∀ (ps : List Nat) a b, ps.length = N → a ≤ b → b ≤ N * w →
        (∀ j, a ≤ j → j < b → packedGet w ps j = false) →
        ∀ j, j < N * w →
          packedGet w (packedUnsetRange w N (packedSetRange w N ps a b) a b) j
            = packedGet w ps j) := by
  constructor
  · intro u a b hu haw hab hbw hdisj
    apply Nat.eq_of_testBit_eq
    intro j
    by_cases hj : j < w
    · rw [primUnsetRange_testBit (primSetRange w u a b) haw hab hbw hj,
        primSetRange_testBit u haw hab hbw hj]
      by_cases hin : a ≤ j ∧ j < b
      · rw [decide_eq_true hin, hdisj j hin.1 hin.2]
        simp
      · rw [decide_eq_false hin]
        simp
    · rw [primUnsetRange_testBit_ge (primSetRange w u a b) hbw (by omega),
        testBit_ge_width hu (by omega)]
  · intro ps a b hps hab hbN hdisj j hj
    have hlen2 : (packedSetRange w N ps a b).length = N := by
      unfold packedSetRange
      rw [packedRangeCore_length]
      exact hps
    have hset := packedRangeCore_testBit (primSetRange w) (primFull w)
      (fun x y => x || y)
      (fun u2 s e j2 hsw hse hew hj2 => primSetRange_testBit u2 hsw hse hew hj2)
      (fun x j2 hj2 => by simp [testBit_primFull, hj2])
      (fun x => Bool.or_false x)
      ps a b hw hps hab hbN j hj
    have hunset := packedRangeCore_testBit (primUnsetRange w) primEmpty
      (fun x y => x && !y)
      (fun u2 s e j2 hsw hse hew hj2 => primUnsetRange_testBit u2 hsw hse hew hj2)
      (fun x j2 hj2 => by simp [primEmpty])
      (fun x => by simp)
      (packedSetRange w N ps a b) a b hw hlen2 hab hbN j hj
    unfold packedUnsetRange
    unfold packedSetRange at hset hunset ⊢
    rw [hunset, hset]
    by_cases hin : a ≤ j ∧ j < b
    · rw [decide_eq_true hin, hdisj j hin.1 hin.2]
      simp
    · rw [decide_eq_false hin]
      simp

theorem c4_witness :
    primUnsetRange 8 (primSetRange 8 16 2 4) 2 4 = 16 :=
  (c4_round_trip 8 1 (by decide)).1 16 2 4 (by decide) (by decide) (by decide)
    (by decide)
    (by intro j h1 h2; interval_cases j <;> decide)

/-- C4 counterexample: on the `u8` word `4` (bit 2 set), `insert_range(2..3)`
then `remove_range(2..3)` yields `0`, not the original `4`: the round trip
erases the pre-existing bit inside the range. -/
theorem c4_counterexample :
    primUnsetRange 8 (primSetRange 8 4 2 3) 2 3 ≠ 4 := by
  decide

/-- C5: intersection and union are pointwise: `(x & y).contains(i)` is the
conjunction and `(x | y).contains(i)` the disjunction of the operands'
`contains(i)`, and the in-place `&=`/`|=` forms compute the same states as
the value-returning operators — for the primitive, packed and SIMD types. -/
theorem c5_bitwise_ops (w : Nat) (x y : Nat) (ps qs lanes1 lanes2 : List Nat)
    (hpq : ps.length = qs.length) (hll : lanes1.length = lanes2.length) (i : Nat) :
    (primGet (primAnd x y) i = (primGet x i && primGet y i))
    ∧ (primGet (primOr x y) i = (primGet x i || primGet y i))
    ∧ primAndAssign x y = primAnd x y
    ∧ primOrAssign x y = primOr x y
    ∧ (packedGet w (packedAnd ps qs) i = (packedGet w ps i && packedGet w qs i))
    ∧ (packedGet w (packedOr ps qs) i = (packedGet w ps i || packedGet w qs i))
    ∧ packedAndAssign ps qs = packedAnd ps qs
    ∧ packedOrAssign ps qs = packedOr ps qs
    ∧ (simdContains w (simdAnd lanes1 lanes2) i
        = (simdContains w lanes1 i && simdContains w lanes2 i))
    ∧ (simdContains w (simdOr lanes1 lanes2) i
        = (simdContains w lanes1 i || simdContains w lanes2 i))
    ∧ simdAndAssign lanes1 lanes2 = simdAnd lanes1 lanes2
    ∧ simdOrAssign lanes1 lanes2 = simdOr lanes1 lanes2 := by
  have hand := zipWith_getD (fun a b => a &&& b) rfl
  have hor := zipWith_getD (fun a b => a ||| b) rfl
  refine ⟨?_, ?_, rfl, rfl, ?_, ?_, rfl, rfl, ?_, ?_, rfl, rfl⟩
  · rw [primGet_eq_testBit, primGet_eq_testBit, primGet_eq_testBit]
    exact Nat.testBit_land x y i
  · rw [primGet_eq_testBit, primGet_eq_testBit, primGet_eq_testBit]
    exact Nat.testBit_lor x y i
  · unfold packedGet packedAnd
    rw [hand ps qs hpq (i / w), primGet_eq_testBit, primGet_eq_testBit,
      primGet_eq_testBit]
    exact Nat.testBit_land _ _ _
  · unfold packedGet packedOr
    rw [hor ps qs hpq (i / w), primGet_eq_testBit, primGet_eq_testBit,
      primGet_eq_testBit]
    exact Nat.testBit_lor _ _ _
  · rw [simdContains_testBit, simdContains_testBit, simdContains_testBit]
    unfold simdAnd
    rw [hand lanes1 lanes2 hll (i / w)]
    exact Nat.testBit_land _ _ _
  · rw [simdContains_testBit, simdContains_testBit, simdContains_testBit]
    unfold simdOr
    rw [hor lanes1 lanes2 hll (i / w)]
    exact Nat.testBit_lor _ _ _

theorem c5_witness :
    primGet (primAnd 6 3) 1 = (primGet 6 1 && primGet 3 1) :=
  (c5_bitwise_ops 8 6 3 [6] [3] [6] [3] rfl rfl 1).1

/-- C6: a fresh forward iteration yields exactly the set of contained
indices in strictly ascending order, a fresh backward iteration yields the
same set in strictly descending order, and the forward sequence is the
reverse of the backward sequence — for the primitive, packed and SIMD
iterators. -/
theorem c6_iteration (w N : Nat) (hw : 0 < w) (bits : Nat) (hb : bits < 2 ^ w)
    (ps : List Nat) (hps : ps.length = N) (hpsb : ∀ p ∈ ps, p < 2 ^ w)
    (lanes : List Nat) (hlanes : lanes.length = N) :
    (primFwdList bits = (List.range w).filter (fun j => primGet bits j)
      ∧ primBwdList w bits = (primFwdList bits).reverse
      ∧ (primFwdList bits).Pairwise (· < ·))
    ∧ (packedFwdList w ps = (List.range (N * w)).filter (fun j => packedGet w ps j)
      ∧ packedBwdList w ps = (packedFwdList w ps).reverse
      ∧ (packedFwdList w ps).Pairwise (· < ·))
    ∧ (simdFwdList w N lanes 0 0
          = (List.range (N * w)).filter (fun j => simdContains w lanes j)
      ∧ simdBwdList w N lanes = (simdFwdList w N lanes 0 0).reverse
      ∧ (simdFwdList w N lanes 0 0).Pairwise (· < ·)) := by
  have hprim : primFwdList bits = (List.range w).filter (fun j => primGet bits j) := by
    rw [filter_primGet, primFwdList_eq_bitsList bits hb]
  have hpacked : packedFwdList w ps
      = (List.range (N * w)).filter (fun j => packedGet w ps j) := by
    rw [packedFwdList_eq w hw ps hpsb, hps]
  have hsimd : simdFwdList w N lanes 0 0
      = (List.range (N * w)).filter (fun j => simdContains w lanes j) := by
    have h := @simdFwdList_eq w N hw lanes 0 0 (Nat.zero_le w)
    simpa [List.range_eq_range'] using h
  refine ⟨⟨hprim, ?_, ?_⟩, ⟨hpacked, ?_, ?_⟩, ⟨hsimd, ?_, ?_⟩⟩
  · rw [primBwdList_eq_reverse bits hb, hprim, filter_primGet]
  · rw [hprim]
    exact (List.pairwise_lt_range w).filter _
  · rw [packedBwdList_eq w hw ps hpsb, hps, hpacked]
  · rw [hpacked]
    exact (List.pairwise_lt_range (N * w)).filter _
  · rw [simdBwdList_eq hw lanes, hsimd]
  · rw [hsimd]
    exact (List.pairwise_lt_range (N * w)).filter _

theorem c6_witness :
    primFwdList 36 = (List.range 8).filter (fun j => primGet 36 j) :=
  (c6_iteration 8 1 (by decide) 36 (by decide) [36] rfl
    (by
      intro p hp
      rw [List.mem_singleton] at hp
      subst hp
      decide)
    [36] rfl).1.1

/-- C7: the spec requires a double-ended iterator to yield each set index
exactly once under any interleaving of `next` and `next_back`.  The SIMD
iterator refutes this: on the single-lane `u8` bitset `0b00100100` (bits 2
and 5), `next()` yields 2 while advancing only the cursor (simd.rs lines
312-343), `next_back()` yields 5 and removes it from the stored bitset
(lines 351-385), and a second `next_back()` scans the stored bitset from
the top, ignoring the forward cursor, and yields 2 a second time. -/
theorem c7_interleaving_repeats :
    simdNextStep 8 1 [36] 0 0 = some (2, 0, 3)
    ∧ simdNextBack 8 1 [36] = some (5, [4])
    ∧ simdNextBack 8 1 [4] = some (2, [0]) := by
  refine ⟨?_, by decide, by decide⟩
  simp +decide [simdNextStep]

/-- C8 (amended): validation of `index < capacity` is not uniform across
the tiers.  The primitive checked `set` carries no assertion — only the
shift itself traps, in debug builds alone, while an optimized build masks
the index; the SIMD checked `insert`/`remove`/`contains` panic on an
out-of-range index in optimized and debug builds alike; the SIMD
"unchecked" insert still validates (panics) in every build; only the
packed unchecked `set` never validates, making an out-of-range call
undefined behavior. -/
theorem c8_validation (w N : Nat) (i : Nat) (hoob : N ≤ i / w) (hwi : w ≤ i) :
    (∀ bits, primSetChecked true w bits i = Except.error RtErr.panic
      ∧ primSetChecked false w bits i = Except.ok (bits ||| (1 <<< (i % w)))
      ∧ primSetUnchecked true w bits i = primSetChecked true w bits i)
    ∧ (∀ debug lanes, simdInsertChecked debug w N lanes i = Except.error RtErr.panic)
    ∧ (∀ debug lanes, simdRemoveChecked debug w N lanes i = Except.error RtErr.panic)
    ∧ (∀ debug lanes, simdContainsChecked debug w N lanes i = Except.error RtErr.panic)
    ∧ (∀ debug lanes, simdInsertUnchecked debug w N lanes i = Except.error RtErr.panic)
    ∧ (∀ debug ps, packedSetChecked debug w N ps i = Except.error RtErr.panic)
    ∧ (∀ debug ps, packedSetUnchecked debug w N ps i = Except.error RtErr.ub) := by
  refine ⟨?_, ?_, ?_, ?_, ?_, ?_, ?_⟩
  · intro bits
    refine ⟨?_, ?_, rfl⟩
    · unfold primSetChecked
      rw [if_pos ⟨rfl, hwi⟩]
    · unfold primSetChecked
      rw [if_neg (fun hc => Bool.false_ne_true hc.1)]
  · intro debug lanes
    unfold simdInsertChecked
    rw [if_pos hoob]
  · intro debug lanes
    unfold simdRemoveChecked
    rw [if_pos hoob]
  · intro debug lanes
    unfold simdContainsChecked
    rw [if_pos hoob]
  · intro debug lanes
    unfold simdInsertUnchecked
    rw [if_pos hoob]
  · intro debug ps
    unfold packedSetChecked
    rw [if_pos hoob]
  · intro debug ps
    unfold packedSetUnchecked
    rw [if_pos hoob]

theorem c8_witness :
    simdInsertChecked false 8 2 [0, 0] 100 = Except.error RtErr.panic :=
  (c8_validation 8 2 100 (by decide) (by decide)).2.1 false [0, 0]

/-- C8 counterexample: in an optimized build (`debug = false`) the spec
says the check is compiled out, yet the SIMD checked `remove` still panics
on an out-of-range index; and with instrumentation on or off the SIMD
"unchecked" insert validates as well. -/
theorem c8_counterexample :
    simdRemoveChecked false 8 2 [0, 0] 100 = Except.error RtErr.panic
    ∧ simdInsertUnchecked true 8 2 [0, 0] 100 = Except.error RtErr.panic :=
  ⟨rfl, rfl⟩

/-- C9 (amended): when the sparse bitset's bounded `ArrayVec` store already
holds `N` entries and `set` must append a new block, the append goes
through `push_unchecked`, which contains no assertion in any build: the
write through `get_unchecked_mut(len)` is out of bounds (undefined
behavior) in debug-instrumented builds just as in optimized ones, not a
debug-detected contract violation. -/
theorem c9_sparse_push_overflow (debug : Bool) (w N : Nat)
    (av : ArrayVecM N) (v : Nat) (hfull : av.len = N)
    (habsent : (av.data.take av.len).any (fun e => e.1 == v / w) = false) :
    sparseAvSet debug w N av v = Except.error RtErr.ub := by
  unfold sparseAvSet pushComponent pushUnchecked
  rw [habsent]
  rw [if_neg Bool.false_ne_true]
  rw [if_neg (by omega)]
  rfl

theorem c9_witness :
    sparseAvSet true 8 1 ⟨[(0, 1)], 1⟩ 8 = Except.error RtErr.ub :=
  c9_sparse_push_overflow true 8 1 ⟨[(0, 1)], 1⟩ 8 rfl (by decide)

/-- C9 counterexample: with debug instrumentation on, appending to the full
one-slot store raises no assertion (`RtErr.panic`); it is the silent
out-of-bounds write `RtErr.ub`. -/
theorem c9_counterexample :
    sparseAvSet true 8 1 ⟨[(0, 1)], 1⟩ 8 ≠ Except.error RtErr.panic := by
  have h0 : sparseAvSet true 8 1 ⟨[(0, 1)], 1⟩ 8 = Except.error RtErr.ub := rfl
  intro h
  rw [h0] at h
  exact RtErr.noConfusion (Except.error.inj h)

/-- C10: the packed range edits must access only sub-component indices
below `N`.  Refuted: for a `PackedBitset` of two `u8` components,
`set_range(0..16)` — the whole capacity, multi-component, with a
boundary-aligned end — passes element index 2 = N to `get_unchecked_mut`,
because the trailing-fragment guard at src/bitset/packed.rs line 121 (and
183) compares `end_bit_index < Self::fixed_capacity()`, the packed capacity
`N * w`, instead of the sub-component capacity `w`; the guard is therefore
always true and the edit touches `end_element_index = b / w = N`. -/
theorem c10_trailing_access_oob :
    2 ∈ packedRangeAccesses 8 2 0 16 := by
  decide

end AocBitset
